import Mathlib

/-!
Verification of the feature dependency resolution and manifest-reconciliation
engine of the `@xarc/module-dev` package (sources `src/feature.ts`,
`src/utils.ts` and `src/module-dev.ts`).

The manifest (`package.json` data) is shallowly embedded as ordered
association lists, the way JavaScript objects behave for the operations the
engine performs: property insertion appends a new key at the end, assignment
to an existing key overwrites the value in place, `delete` removes the entry,
and `Object.keys(..).sort()` enumerates keys in list order and sorts them by
string comparison.  JavaScript objects never hold duplicate keys; theorems
that depend on that carry explicit `Nodup` hypotheses.

File layout: generic association-list operations, the lodash-style list
helpers (`uniq`, `without`, sorting), the `Feature` record and its
`update` / `remove` manifest mutations, the feature resolver of
`addFeatures` / `removeFeatures`, the reconciliation engine state machine
(including `finish` with its setup/teardown callbacks modelled as abstract
manifest transformers that may fail), followed by the theorems.
-/

namespace ModuleDev

/-! ### Generic ordered association lists (JavaScript objects) -/

/-- Keys of an object, in property order (`Object.keys`). -/
def keysOf {β : Type} (l : List (String × β)) : List String :=
  l.map Prod.fst

/-- First value stored under key `k`, if any (JS property read). -/
def lookupKey {β : Type} (l : List (String × β)) (k : String) : Option β :=
  match l with
  | [] => none
  | (k', v) :: rest => if k' = k then some v else lookupKey rest k

/-- JS property assignment `o[k] = v`: overwrite in place when the key is
present (a JS object holds each key at most once), otherwise append the new
entry at the end. -/
def setKey {β : Type} (l : List (String × β)) (k : String) (v : β) :
    List (String × β) :=
  match l with
  | [] => [(k, v)]
  | (k', v') :: rest =>
    if k' = k then (k, v) :: rest else (k', v') :: setKey rest k v

/-- JS `delete o[k]`: drop every entry stored under `k`. -/
def delKey {β : Type} (l : List (String × β)) (k : String) :
    List (String × β) :=
  l.filter (fun kv => decide (kv.1 ≠ k))

/-! ### lodash-style helpers on string lists -/

/-- `_.without(l, ...xs)`: drop the listed values. -/
def without (l xs : List String) : List String :=
  l.filter (fun x => decide (x ∉ xs))

/-- Worker for `uniq`: `seen` holds the values already emitted. -/
def uniqAux (seen : List String) : List String → List String
  | [] => []
  | x :: xs =>
    if x ∈ seen then uniqAux seen xs else x :: uniqAux (x :: seen) xs

/-- `_.uniq`: keep the first occurrence of each element. -/
def uniq (l : List String) : List String := uniqAux [] l

/-- Lexicographic comparison of character lists by code point, the order
`Array.prototype.sort()` and `Object.keys(..).sort()` use on the ASCII
package and feature names handled here. -/
def strLt : List Char → List Char → Bool
  | [], [] => false
  | [], _ :: _ => true
  | _ :: _, [] => false
  | c₁ :: r₁, c₂ :: r₂ =>
    if c₁.toNat < c₂.toNat then true
    else if c₂.toNat < c₁.toNat then false
    else strLt r₁ r₂

/-- Strict string order. -/
def sLt (a b : String) : Prop := strLt a.data b.data = true

/-- Non-strict string order (the negation of the reverse strict order). -/
def sLe (a b : String) : Prop := strLt b.data a.data = false

instance : DecidableRel sLt := fun a b =>
  instDecidableEqBool (strLt a.data b.data) true

instance : DecidableRel sLe := fun a b =>
  instDecidableEqBool (strLt b.data a.data) false

theorem strLt_irrefl (x : List Char) : strLt x x = false := by
  induction x with
  | nil => rfl
  | cons c r ih => simp [strLt, ih]

theorem strLt_asymm : ∀ {x y : List Char},
    strLt x y = true → strLt y x = false := by
  intro x
  induction x with
  | nil =>
    intro y h
    cases y with
    | nil => exact absurd h (by simp [strLt])
    | cons c r => rfl
  | cons c₁ r₁ ih =>
    intro y h
    cases y with
    | nil => exact absurd h (by simp [strLt])
    | cons c₂ r₂ =>
      by_cases h1 : c₁.toNat < c₂.toNat
      · have h2 : ¬ c₂.toNat < c₁.toNat := by omega
        simp [strLt, h1, h2]
      · by_cases h2 : c₂.toNat < c₁.toNat
        · simp [strLt, h1, h2] at h
        · simp only [strLt, if_neg h1, if_neg h2] at h
          simp only [strLt, if_neg h1, if_neg h2]
          exact ih h

theorem strLt_trans : ∀ {x y z : List Char},
    strLt x y = true → strLt y z = true → strLt x z = true := by
  intro x
  induction x with
  | nil =>
    intro y z h1 h2
    cases y with
    | nil => exact absurd h1 (by simp [strLt])
    | cons c₂ r₂ =>
      cases z with
      | nil => exact absurd h2 (by simp [strLt])
      | cons c₃ r₃ => rfl
  | cons c₁ r₁ ih =>
    intro y z h1 h2
    cases y with
    | nil => exact absurd h1 (by simp [strLt])
    | cons c₂ r₂ =>
      cases z with
      | nil => exact absurd h2 (by simp [strLt])
      | cons c₃ r₃ =>
        by_cases ha : c₁.toNat < c₂.toNat <;>
          by_cases hb : c₂.toNat < c₃.toNat
        · simp [strLt, show c₁.toNat < c₃.toNat by omega]
        · by_cases hb' : c₃.toNat < c₂.toNat
          · simp [strLt, ha, hb, hb'] at h2
          · have he : c₂.toNat = c₃.toNat := by omega
            simp [strLt, show c₁.toNat < c₃.toNat by omega]
        · by_cases ha' : c₂.toNat < c₁.toNat
          · simp [strLt, ha, ha'] at h1
          · have he : c₁.toNat = c₂.toNat := by omega
            simp [strLt, show c₁.toNat < c₃.toNat by omega]
        · by_cases ha' : c₂.toNat < c₁.toNat
          · simp [strLt, ha, ha'] at h1
          · by_cases hb' : c₃.toNat < c₂.toNat
            · simp [strLt, hb, hb'] at h2
            · have h1' : strLt r₁ r₂ = true := by
                simpa [strLt, ha, ha'] using h1
              have h2' : strLt r₂ r₃ = true := by
                simpa [strLt, hb, hb'] using h2
              have hc : ¬ c₁.toNat < c₃.toNat := by omega
              have hc' : ¬ c₃.toNat < c₁.toNat := by omega
              simp only [strLt, if_neg hc, if_neg hc']
              exact ih h1' h2'

theorem strLt_conn : ∀ {x y : List Char},
    strLt x y = false → strLt y x = false → x = y := by
  intro x
  induction x with
  | nil =>
    intro y h1 _
    cases y with
    | nil => rfl
    | cons c r => exact absurd h1 (by simp [strLt])
  | cons c₁ r₁ ih =>
    intro y h1 h2
    cases y with
    | nil => exact absurd h2 (by simp [strLt])
    | cons c₂ r₂ =>
      by_cases ha : c₁.toNat < c₂.toNat
      · simp [strLt, ha] at h1
      · by_cases hb : c₂.toNat < c₁.toNat
        · simp [strLt, hb] at h2
        · have hc : c₁ = c₂ := Char.eq_of_val_eq (UInt32.ext (by
            simp only [Char.toNat] at ha hb
            omega))
          subst hc
          have h1' : strLt r₁ r₂ = false := by
            simpa [strLt, ha, hb] using h1
          have h2' : strLt r₂ r₁ = false := by
            simpa [strLt, ha, hb] using h2
          rw [ih h1' h2']

theorem string_data_inj {a b : String} (h : a.data = b.data) : a = b := by
  cases a
  cases b
  exact congrArg String.mk h

theorem sLe_of_not_sLt {a b : String} (h : ¬ sLt b a) : sLe a b := by
  unfold sLt at h
  unfold sLe
  simpa using h

theorem sLt_irrefl' (a : String) : ¬ sLt a a := by
  unfold sLt
  simp [strLt_irrefl]

theorem sLt_trans' {a b c : String} (h1 : sLt a b) (h2 : sLt b c) :
    sLt a c := strLt_trans h1 h2

theorem sLe_total' (a b : String) : sLe a b ∨ sLe b a := by
  unfold sLe
  rcases h : strLt b.data a.data with _ | _
  · exact Or.inl rfl
  · exact Or.inr (strLt_asymm h)

theorem sLe_trans' {a b c : String} (h1 : sLe a b) (h2 : sLe b c) :
    sLe a c := by
  unfold sLe at *
  rcases hab : strLt a.data b.data with _ | _
  · rcases h3 : strLt c.data a.data with _ | _
    · rfl
    · exact absurd (strLt_conn hab h1 ▸ h3) (by simp [h2])
  · rcases h3 : strLt c.data a.data with _ | _
    · rfl
    · exact absurd (strLt_trans h3 hab) (by simp [h2])

theorem sLe_antisymm' {a b : String} (h1 : sLe a b) (h2 : sLe b a) :
    a = b := string_data_inj (strLt_conn h2 h1)

theorem sLt_of_sLe_ne {a b : String} (h1 : sLe a b) (h2 : a ≠ b) :
    sLt a b := by
  unfold sLe at h1
  unfold sLt
  rcases h : strLt a.data b.data with _ | _
  · exact absurd (string_data_inj (strLt_conn h h1)) h2
  · rfl

theorem sLe_of_sLt {a b : String} (h : sLt a b) : sLe a b :=
  strLt_asymm h

theorem sLt_asymm' {a b : String} (h : sLt a b) : ¬ sLt b a := by
  unfold sLt at *
  simp [strLt_asymm h]

instance : IsTotal String sLe := ⟨sLe_total'⟩

instance : IsTrans String sLe := ⟨fun _ _ _ => sLe_trans'⟩

instance : IsAntisymm String sLe := ⟨fun _ _ => sLe_antisymm'⟩

/-- `Array.prototype.sort()` on strings: ascending by string comparison. -/
def sortStrings (l : List String) : List String :=
  List.insertionSort sLe l

/-! ### Basic lemmas about the helpers -/

theorem keysOf_append {β : Type} (l₁ l₂ : List (String × β)) :
    keysOf (l₁ ++ l₂) = keysOf l₁ ++ keysOf l₂ := by
  simp [keysOf]

theorem lookupKey_eq_none {β : Type} (l : List (String × β)) (k : String) :
    lookupKey l k = none ↔ k ∉ keysOf l := by
  induction l with
  | nil => simp [lookupKey, keysOf]
  | cons kv rest ih =>
    obtain ⟨k', v⟩ := kv
    by_cases h : k' = k
    · subst h
      simp [lookupKey, keysOf]
    · have h' : ¬ k = k' := fun hh => h hh.symm
      simp only [lookupKey, if_neg h, keysOf, List.map_cons, List.mem_cons,
        not_or, ih]
      simp [keysOf, h']

theorem lookupKey_isSome {β : Type} (l : List (String × β)) (k : String) :
    (lookupKey l k).isSome ↔ k ∈ keysOf l := by
  rcases h : lookupKey l k with _ | v
  · simp [(lookupKey_eq_none l k).mp h]
  · simp
    have : ¬ lookupKey l k = none := by simp [h]
    rw [lookupKey_eq_none] at this
    simpa using this

theorem mem_of_lookupKey_eq_some {β : Type} {l : List (String × β)}
    {k : String} {v : β} (h : lookupKey l k = some v) : (k, v) ∈ l := by
  induction l with
  | nil => simp [lookupKey] at h
  | cons kv rest ih =>
    obtain ⟨k', v'⟩ := kv
    by_cases hk : k' = k
    · subst hk
      simp [lookupKey] at h
      simp [h]
    · simp [lookupKey, hk] at h
      exact List.mem_cons_of_mem _ (ih h)

theorem lookupKey_eq_some_of_mem {β : Type} {l : List (String × β)}
    {k : String} {v : β} (hnd : (keysOf l).Nodup) (h : (k, v) ∈ l) :
    lookupKey l k = some v := by
  induction l with
  | nil => simp at h
  | cons kv rest ih =>
    obtain ⟨k', v'⟩ := kv
    simp only [keysOf, List.map_cons, List.nodup_cons] at hnd
    rcases List.mem_cons.mp h with h1 | h1
    · injection h1 with h1a h1b
      subst h1a
      subst h1b
      simp [lookupKey]
    · have hk : k' ≠ k := by
        intro hh
        subst hh
        exact hnd.1 (List.mem_map.mpr ⟨(k', v), h1, rfl⟩)
      simp [lookupKey, hk]
      exact ih hnd.2 h1

theorem lookupKey_append_of_not_mem {β : Type} {l : List (String × β)}
    (l₂ : List (String × β)) {k : String} (h : k ∉ keysOf l) :
    lookupKey (l ++ l₂) k = lookupKey l₂ k := by
  induction l with
  | nil => rfl
  | cons kv rest ih =>
    obtain ⟨k', v'⟩ := kv
    simp only [keysOf, List.map_cons, List.mem_cons, not_or] at h
    have hk : ¬ k' = k := fun hh => h.1 hh.symm
    simpa [lookupKey, hk] using ih (by simpa [keysOf] using h.2)

theorem keysOf_setKey_of_mem {β : Type} {l : List (String × β)} {k : String}
    (v : β) (h : k ∈ keysOf l) : keysOf (setKey l k v) = keysOf l := by
  induction l with
  | nil => simp [keysOf] at h
  | cons kv rest ih =>
    obtain ⟨k', v'⟩ := kv
    by_cases hk : k' = k
    · subst hk
      simp [setKey, keysOf]
    · simp only [keysOf, List.map_cons, List.mem_cons] at h
      rcases h with h | h
      · exact absurd h.symm hk
      · simp only [setKey, if_neg hk, keysOf, List.map_cons]
        rw [show List.map Prod.fst (setKey rest k v) = keysOf (setKey rest k v)
          from rfl, ih (by simpa [keysOf] using h)]
        rfl

theorem keysOf_setKey_of_not_mem {β : Type} {l : List (String × β)}
    {k : String} (v : β) (h : k ∉ keysOf l) :
    keysOf (setKey l k v) = keysOf l ++ [k] := by
  induction l with
  | nil => simp [setKey, keysOf]
  | cons kv rest ih =>
    obtain ⟨k', v'⟩ := kv
    simp only [keysOf, List.map_cons, List.mem_cons, not_or] at h
    have hk : ¬ k' = k := fun hh => h.1 hh.symm
    simp only [setKey, if_neg hk, keysOf, List.map_cons]
    rw [show List.map Prod.fst (setKey rest k v) = keysOf (setKey rest k v)
      from rfl, ih (by simpa [keysOf] using h.2)]
    rfl

theorem mem_keysOf_setKey {β : Type} (l : List (String × β)) (k k' : String)
    (v : β) : k' ∈ keysOf (setKey l k v) ↔ k' ∈ keysOf l ∨ k' = k := by
  by_cases h : k ∈ keysOf l
  · rw [keysOf_setKey_of_mem v h]
    constructor
    · exact Or.inl
    · rintro (h1 | rfl) <;> [exact h1; exact h]
  · rw [keysOf_setKey_of_not_mem v h]
    simp

theorem nodup_keysOf_setKey {β : Type} {l : List (String × β)} {k : String}
    (v : β) (h : (keysOf l).Nodup) : (keysOf (setKey l k v)).Nodup := by
  by_cases hm : k ∈ keysOf l
  · rwa [keysOf_setKey_of_mem v hm]
  · rw [keysOf_setKey_of_not_mem v hm]
    simpa [List.nodup_append] using ⟨h, hm⟩

theorem lookupKey_setKey_self {β : Type} (l : List (String × β)) (k : String)
    (v : β) : lookupKey (setKey l k v) k = some v := by
  induction l with
  | nil => simp [setKey, lookupKey]
  | cons kv rest ih =>
    obtain ⟨k', v'⟩ := kv
    by_cases hk : k' = k
    · simp [setKey, hk, lookupKey]
    · simp [setKey, hk, lookupKey, ih]

theorem lookupKey_setKey_ne {β : Type} (l : List (String × β)) {k k' : String}
    (v : β) (h : k' ≠ k) : lookupKey (setKey l k v) k' = lookupKey l k' := by
  induction l with
  | nil =>
    simp [setKey, lookupKey]
    exact fun hh => h hh.symm
  | cons kv rest ih =>
    obtain ⟨k₀, v₀⟩ := kv
    by_cases hk : k₀ = k
    · subst hk
      have h1 : ¬ k₀ = k' := fun hh => h hh.symm
      simp [setKey, lookupKey, h1]
    · by_cases hk' : k₀ = k'
      · simp [setKey, hk, lookupKey, hk', h]
      · simp [setKey, hk, lookupKey, hk', ih]

theorem mem_keysOf_delKey {β : Type} (l : List (String × β)) (k k' : String) :
    k' ∈ keysOf (delKey l k) ↔ k' ∈ keysOf l ∧ k' ≠ k := by
  simp only [delKey, keysOf, List.mem_map, List.mem_filter,
    decide_eq_true_eq]
  constructor
  · rintro ⟨kv, ⟨hm, hne⟩, rfl⟩
    exact ⟨⟨kv, hm, rfl⟩, hne⟩
  · rintro ⟨⟨kv, hm, rfl⟩, hne⟩
    exact ⟨kv, ⟨hm, hne⟩, rfl⟩

theorem delKey_of_not_mem {β : Type} {l : List (String × β)} {k : String}
    (h : k ∉ keysOf l) : delKey l k = l := by
  rw [delKey, List.filter_eq_self]
  rintro ⟨k', v'⟩ hm
  simp only [decide_eq_true_eq]
  rintro rfl
  exact h (List.mem_map.mpr ⟨(k', v'), hm, rfl⟩)

theorem lookupKey_delKey_ne {β : Type} (l : List (String × β))
    {k k' : String} (h : k' ≠ k) :
    lookupKey (delKey l k) k' = lookupKey l k' := by
  induction l with
  | nil => rfl
  | cons kv rest ih =>
    obtain ⟨k₀, v₀⟩ := kv
    by_cases hk : k₀ = k
    · subst hk
      have h1 : ¬ k₀ = k' := fun hh => h hh.symm
      simp [delKey, lookupKey, h1] at ih ⊢
      exact ih
    · by_cases hk' : k₀ = k'
      · simp [delKey, lookupKey, hk, hk', h]
      · simp [delKey, lookupKey, hk, hk'] at ih ⊢
        exact ih

theorem mem_without (l xs : List String) (a : String) :
    a ∈ without l xs ↔ a ∈ l ∧ a ∉ xs := by
  simp [without]

theorem uniqAux_sublist (seen l : List String) :
    List.Sublist (uniqAux seen l) l := by
  induction l generalizing seen with
  | nil => simp [uniqAux]
  | cons x xs ih =>
    rw [uniqAux]
    by_cases hx : x ∈ seen
    · rw [if_pos hx]
      exact (ih seen).cons x
    · rw [if_neg hx]
      exact (ih (x :: seen)).cons₂ x

theorem uniq_sublist (l : List String) : List.Sublist (uniq l) l :=
  uniqAux_sublist [] l

theorem mem_uniqAux (seen l : List String) (a : String) :
    a ∈ uniqAux seen l ↔ a ∈ l ∧ a ∉ seen := by
  induction l generalizing seen with
  | nil => simp [uniqAux]
  | cons x xs ih =>
    rw [uniqAux]
    by_cases hx : x ∈ seen
    · rw [if_pos hx, ih seen, List.mem_cons]
      by_cases ha : a = x
      · subst ha
        simp [hx]
      · simp [ha]
    · rw [if_neg hx, List.mem_cons, ih (x :: seen), List.mem_cons,
        List.mem_cons]
      by_cases ha : a = x
      · subst ha
        simp [hx]
      · simp [ha]

theorem mem_uniq (l : List String) (a : String) : a ∈ uniq l ↔ a ∈ l := by
  rw [uniq, mem_uniqAux]
  simp

theorem nodup_uniqAux (seen l : List String) : (uniqAux seen l).Nodup := by
  induction l generalizing seen with
  | nil => simp [uniqAux]
  | cons x xs ih =>
    rw [uniqAux]
    by_cases hx : x ∈ seen
    · rw [if_pos hx]
      exact ih seen
    · rw [if_neg hx]
      refine List.nodup_cons.mpr ⟨?_, ih (x :: seen)⟩
      intro hmem
      exact ((mem_uniqAux _ _ _).mp hmem).2 (List.mem_cons_self x seen)

theorem nodup_uniq (l : List String) : (uniq l).Nodup :=
  nodup_uniqAux [] l

theorem sorted_uniq {l : List String} (h : List.Sorted sLe l) :
    List.Sorted sLe (uniq l) :=
  List.Pairwise.sublist (uniq_sublist l) h

theorem perm_sortStrings (l : List String) : List.Perm (sortStrings l) l :=
  List.perm_insertionSort _ l

theorem sorted_sortStrings (l : List String) :
    List.Sorted sLe (sortStrings l) :=
  List.sorted_insertionSort _ l

theorem mem_sortStrings (l : List String) (a : String) :
    a ∈ sortStrings l ↔ a ∈ l :=
  (perm_sortStrings l).mem_iff

theorem nodup_sortStrings {l : List String} (h : l.Nodup) :
    (sortStrings l).Nodup :=
  ((perm_sortStrings l).nodup_iff).mpr h

theorem pairwise_lt_of_sorted_nodup {l : List String}
    (hs : List.Sorted sLe l) (hn : l.Nodup) :
    List.Pairwise sLt l :=
  (hs.and hn).imp (fun h => sLt_of_sLe_ne h.1 h.2)

/-- Two strictly sorted string lists with the same members are equal. -/
theorem strictSorted_ext : ∀ {l₁ l₂ : List String},
    List.Pairwise sLt l₁ → List.Pairwise sLt l₂ →
    (∀ a, a ∈ l₁ ↔ a ∈ l₂) → l₁ = l₂ := by
  intro l₁
  induction l₁ with
  | nil =>
    intro l₂ _ _ hm
    exact (List.eq_nil_iff_forall_not_mem.mpr
      (fun a ha => by simpa using (hm a).mpr ha)).symm
  | cons x xs ih =>
    intro l₂ h₁ h₂ hm
    match l₂ with
    | [] => exact absurd ((hm x).mp (List.mem_cons_self x xs)) (by simp)
    | y :: ys =>
      have hxy : x = y := by
        rcases List.mem_cons.mp ((hm x).mp (List.mem_cons_self x xs)) with
          h | hxys
        · exact h
        · rcases List.mem_cons.mp ((hm y).mpr (List.mem_cons_self y ys)) with
            h | hyxs
          · exact h.symm
          · exact absurd (sLt_trans' ((List.pairwise_cons.mp h₁).1 y hyxs)
              ((List.pairwise_cons.mp h₂).1 x hxys)) (sLt_irrefl' x)
      subst hxy
      have htl : ∀ a, a ∈ xs ↔ a ∈ ys := by
        intro a
        constructor
        · intro ha
          have hax : sLt x a := (List.pairwise_cons.mp h₁).1 a ha
          rcases List.mem_cons.mp ((hm a).mp (List.mem_cons_of_mem x ha)) with
            h | h
          · exact absurd (h ▸ hax) (sLt_irrefl' x)
          · exact h
        · intro ha
          have hax : sLt x a := (List.pairwise_cons.mp h₂).1 a ha
          rcases List.mem_cons.mp ((hm a).mpr (List.mem_cons_of_mem x ha)) with
            h | h
          · exact absurd (h ▸ hax) (sLt_irrefl' x)
          · exact h
      rw [ih (List.pairwise_cons.mp h₁).2 (List.pairwise_cons.mp h₂).2 htl]

/-! ### Manifest objects and sections

`Obj` is one dependency section of the manifest (package name ↦ version
spec); `Sections` is the manifest seen as an ordered mapping from section
keys (such as "dependencies", "devDependencies") to sections.  Both behave
like JS objects. -/

abbrev Obj := List (String × String)

abbrev Sections := List (String × Obj)

instance : DecidableRel (fun a b : String × String => sLe a.1 b.1) :=
  fun a b => instDecidableEqBool (strLt b.1.data a.1.data) false

instance : IsTotal (String × String) (fun a b => sLe a.1 b.1) :=
  ⟨fun a b => sLe_total' a.1 b.1⟩

instance : IsTrans (String × String) (fun a b => sLe a.1 b.1) :=
  ⟨fun _ _ _ hab hbc => sLe_trans' hab hbc⟩

instance : IsAntisymm (String × String) (fun a b => sLt a.1 b.1) :=
  ⟨fun _ _ hab hba => absurd hba (sLt_asymm' hab)⟩

/-- `sortObjKeys` (src/utils.ts): rebuild an object with its keys in
ascending order (`Object.keys(obj).sort().reduce(..)`).  A JS object holds
each key exactly once, so this is sorting the entries by key. -/
def sortObjKeys (o : Obj) : Obj :=
  List.insertionSort (fun a b => sLe a.1 b.1) o

theorem perm_sortObjKeys (o : Obj) : List.Perm (sortObjKeys o) o :=
  List.perm_insertionSort _ o

theorem sorted_sortObjKeys (o : Obj) :
    List.Pairwise (fun a b : String × String => sLe a.1 b.1)
      (sortObjKeys o) :=
  List.sorted_insertionSort _ o

theorem sorted_keysOf_sortObjKeys (o : Obj) :
    List.Sorted sLe (keysOf (sortObjKeys o)) := by
  rw [keysOf, List.Sorted, List.pairwise_map]
  exact sorted_sortObjKeys o

theorem keysOf_perm_of_perm {β : Type} {l₁ l₂ : List (String × β)}
    (h : List.Perm l₁ l₂) : List.Perm (keysOf l₁) (keysOf l₂) :=
  h.map Prod.fst

theorem mem_keysOf_sortObjKeys (o : Obj) (k : String) :
    k ∈ keysOf (sortObjKeys o) ↔ k ∈ keysOf o :=
  (keysOf_perm_of_perm (perm_sortObjKeys o)).mem_iff

theorem nodup_keysOf_sortObjKeys {o : Obj} (h : (keysOf o).Nodup) :
    (keysOf (sortObjKeys o)).Nodup :=
  ((keysOf_perm_of_perm (perm_sortObjKeys o)).nodup_iff).mpr h

theorem lookupKey_eq_of_perm {β : Type} {l₁ l₂ : List (String × β)}
    (h : List.Perm l₁ l₂) (hnd : (keysOf l₁).Nodup) (k : String) :
    lookupKey l₁ k = lookupKey l₂ k := by
  have hnd₂ : (keysOf l₂).Nodup := ((keysOf_perm_of_perm h).nodup_iff).mp hnd
  rcases hv : lookupKey l₁ k with _ | v
  · have : k ∉ keysOf l₂ := by
      rw [← (keysOf_perm_of_perm h).mem_iff]
      exact (lookupKey_eq_none l₁ k).mp hv
    exact ((lookupKey_eq_none l₂ k).mpr this).symm
  · exact (lookupKey_eq_some_of_mem hnd₂
      (h.mem_iff.mp (mem_of_lookupKey_eq_some hv))).symm

theorem lookupKey_sortObjKeys {o : Obj} (h : (keysOf o).Nodup) (k : String) :
    lookupKey (sortObjKeys o) k = lookupKey o k :=
  lookupKey_eq_of_perm (perm_sortObjKeys o) (nodup_keysOf_sortObjKeys h) k

/-! ### The per-feature manifest mutations (src/feature.ts) -/

/-- `Feature.update`'s inner loop: `for (const k in deps) target[k] = deps[k]`,
overwriting each entry of `deps` into `target` (last write wins). -/
def applyDeps (target deps : Obj) : Obj :=
  deps.foldl (fun acc kv => setKey acc kv.1 kv.2) target

/-- `Feature.remove`'s inner loop: `for (const k in deps) delete target[k]`. -/
def delKeys (target : Obj) (ks : List String) : Obj :=
  ks.foldl delKey target

/-- `_.get(pkg, section, {})`. -/
def getSection (pkg : Sections) (sec : String) : Obj :=
  (lookupKey pkg sec).getD []

/-- `Feature.update(pkg, deps, section)` (src/feature.ts): read the section
(default empty), overwrite every entry of `deps` into it, and when the
result is non-empty write it back with sorted keys. -/
def updateSec (pkg : Sections) (deps : Obj) (sec : String) : Sections :=
  let target := applyDeps (getSection pkg sec) deps
  if target.isEmpty then pkg else setKey pkg sec (sortObjKeys target)

/-- `Feature.remove(pkg, deps, section)` (src/feature.ts): read the section
(default empty), delete every key of `deps` from it; delete the section key
entirely when the result is empty, otherwise write back the sorted
remainder. -/
def removeSec (pkg : Sections) (deps : Obj) (sec : String) : Sections :=
  let target := delKeys (getSection pkg sec) (keysOf deps)
  if target.isEmpty then delKey pkg sec
  else setKey pkg sec (sortObjKeys target)

/-- A feature descriptor: its name and the dependency entries it contributes
to the "dependencies" and "devDependencies" manifest sections
(src/feature.ts; the setup/remove callbacks are modelled at the engine level
as abstract manifest transformers). -/
structure Feature where
  name : String
  deps : Obj
  devDeps : Obj
deriving DecidableEq, Repr

/-- `Feature.updateToPkg`. -/
def Feature.updateToPkg (ft : Feature) (pkg : Sections) : Sections :=
  updateSec (updateSec pkg ft.deps "dependencies") ft.devDeps "devDependencies"

/-- `Feature.removeFromPkg`. -/
def Feature.removeFromPkg (ft : Feature) (pkg : Sections) : Sections :=
  removeSec (removeSec pkg ft.deps "dependencies") ft.devDeps "devDependencies"

/-- `Feature.check(deps, target)`: every key of `deps` is a key of
`target`. -/
def Feature.check (deps target : Obj) : Bool :=
  (keysOf deps).all (fun k => decide (k ∈ keysOf target))

/-- `Feature.checkPkg(pkg)`. -/
def Feature.checkPkg (ft : Feature) (pkg : Sections) : Bool :=
  Feature.check ft.deps (getSection pkg "dependencies") &&
    Feature.check ft.devDeps (getSection pkg "devDependencies")

/-! ### Lemmas about the per-section mutations -/

theorem applyDeps_nil (t : Obj) : applyDeps t [] = t := rfl

theorem applyDeps_cons (t : Obj) (kv : String × String) (d : Obj) :
    applyDeps t (kv :: d) = applyDeps (setKey t kv.1 kv.2) d := rfl

theorem mem_keysOf_applyDeps (t d : Obj) (k : String) :
    k ∈ keysOf (applyDeps t d) ↔ k ∈ keysOf t ∨ k ∈ keysOf d := by
  induction d generalizing t with
  | nil => simp [applyDeps, keysOf]
  | cons kv rest ih =>
    rw [applyDeps_cons, ih, mem_keysOf_setKey]
    simp only [keysOf, List.map_cons, List.mem_cons]
    tauto

theorem nodup_keysOf_applyDeps {t : Obj} (d : Obj)
    (h : (keysOf t).Nodup) : (keysOf (applyDeps t d)).Nodup := by
  induction d generalizing t with
  | nil => exact h
  | cons kv rest ih =>
    rw [applyDeps_cons]
    exact ih (nodup_keysOf_setKey _ h)

theorem lookupKey_applyDeps_of_not_mem {d : Obj} {k : String}
    (t : Obj) (h : k ∉ keysOf d) :
    lookupKey (applyDeps t d) k = lookupKey t k := by
  induction d generalizing t with
  | nil => rfl
  | cons kv rest ih =>
    simp only [keysOf, List.map_cons, List.mem_cons, not_or] at h
    rw [applyDeps_cons, ih _ (by simpa [keysOf] using h.2),
      lookupKey_setKey_ne _ _ h.1]

theorem lookupKey_applyDeps_of_mem {d : Obj} {k v : String}
    (t : Obj) (hnd : (keysOf d).Nodup) (h : (k, v) ∈ d) :
    lookupKey (applyDeps t d) k = some v := by
  induction d generalizing t with
  | nil => simp at h
  | cons kv rest ih =>
    simp only [keysOf, List.map_cons, List.nodup_cons] at hnd
    rcases List.mem_cons.mp h with h1 | h1
    · subst h1
      rw [applyDeps_cons, lookupKey_applyDeps_of_not_mem _
        (by simpa [keysOf] using hnd.1), lookupKey_setKey_self]
    · exact ih _ hnd.2 h1

theorem setKey_of_not_mem {β : Type} {l : List (String × β)} {k : String}
    (v : β) (h : k ∉ keysOf l) : setKey l k v = l ++ [(k, v)] := by
  induction l with
  | nil => simp [setKey]
  | cons kv rest ih =>
    obtain ⟨k₀, v₀⟩ := kv
    simp only [keysOf, List.map_cons, List.mem_cons, not_or] at h
    have hk : ¬ k₀ = k := fun hh => h.1 hh.symm
    simp [setKey, hk, ih (by simpa [keysOf] using h.2)]

theorem applyDeps_eq_append {t d : Obj}
    (hdisj : ∀ k ∈ keysOf d, k ∉ keysOf t) (hnd : (keysOf d).Nodup) :
    applyDeps t d = t ++ d := by
  induction d generalizing t with
  | nil => simp [applyDeps]
  | cons kv rest ih =>
    obtain ⟨k, v⟩ := kv
    simp only [keysOf, List.map_cons, List.nodup_cons] at hnd
    have hd2 : ∀ k' ∈ keysOf rest, k' ∉ keysOf (t ++ [(k, v)]) := by
      intro k' hk'
      rw [keysOf_append]
      simp only [List.mem_append, not_or]
      have hmem : k' ∈ keysOf ((k, v) :: rest) := by
        simp only [keysOf, List.map_cons, List.mem_cons]
        exact Or.inr hk'
      refine ⟨hdisj k' hmem, ?_⟩
      simp only [keysOf, List.map_cons, List.map_nil, List.mem_cons,
        List.not_mem_nil, or_false]
      intro hh
      subst hh
      exact hnd.1 hk'
    rw [applyDeps_cons, setKey_of_not_mem v
      (hdisj k (by simp [keysOf])), ih hd2 hnd.2, List.append_assoc]
    rfl

theorem delKeys_eq_filter (t : Obj) (ks : List String) :
    delKeys t ks = t.filter (fun kv => decide (kv.1 ∉ ks)) := by
  induction ks generalizing t with
  | nil => simp [delKeys]
  | cons k rest ih =>
    show delKeys (delKey t k) rest = _
    rw [ih, delKey, List.filter_filter]
    refine List.filter_congr ?_
    intro kv _
    by_cases h1 : kv.1 = k <;> by_cases h2 : kv.1 ∈ rest <;>
      simp [h1, h2]

theorem mem_keysOf_delKeys (t : Obj) (ks : List String) (k : String) :
    k ∈ keysOf (delKeys t ks) ↔ k ∈ keysOf t ∧ k ∉ ks := by
  rw [delKeys_eq_filter]
  simp only [keysOf, List.mem_map, List.mem_filter, decide_eq_true_eq]
  constructor
  · rintro ⟨kv, ⟨hm, hk⟩, rfl⟩
    exact ⟨⟨kv, hm, rfl⟩, hk⟩
  · rintro ⟨⟨kv, hm, rfl⟩, hk⟩
    exact ⟨kv, ⟨hm, hk⟩, rfl⟩

theorem delKeys_of_disjoint {t : Obj} {ks : List String}
    (h : ∀ k ∈ ks, k ∉ keysOf t) : delKeys t ks = t := by
  rw [delKeys_eq_filter, List.filter_eq_self]
  rintro ⟨k, v⟩ hm
  simp only [decide_eq_true_eq]
  intro hk
  exact h k hk (List.mem_map.mpr ⟨(k, v), hm, rfl⟩)

/-! ### The feature resolver (src/module-dev.ts)

`addFeatures` unions the current features with the requested ones and then
pushes three hard-coded implications, in order, each test running against
the list as mutated so far; `removeFeatures` first drops the requested
names and then extends the removal list by the companions whose
prerequisites are gone.  Single pass, not a fixed point. -/

/-- Lines 326-328: if typescript and eslint are enabled, push eslintTS. -/
def addStep1 (nf : List String) : List String :=
  if "typescript" ∈ nf ∧ "eslint" ∈ nf then nf ++ ["eslintTS"] else nf

/-- Lines 330-332: if jest and typescript are enabled, push jestTS. -/
def addStep2 (nf : List String) : List String :=
  if "jest" ∈ nf ∧ "typescript" ∈ nf then nf ++ ["jestTS"] else nf

/-- Lines 335-337: if typedoc is enabled, push typescript. -/
def addStep3 (nf : List String) : List String :=
  if "typedoc" ∈ nf then nf ++ ["typescript"] else nf

/-- The resolved feature list of `addFeatures` (lines 322-339):
`_.uniq` of the current∪requested list with the implications pushed. -/
def addResolve (current requested : List String) : List String :=
  uniq (addStep3 (addStep2 (addStep1 (current ++ requested))))

/-- `XarcModuleDev.updateFeatures` (lines 366-368): `_.uniq(features.sort())`. -/
def updateFeaturesList (features : List String) : List String :=
  uniq (sortStrings features)

/-- Line 371 of `removeFeatures`: `_.uniq(_.without(this._features, ...features))`. -/
def removeNewFeatures (current requested : List String) : List String :=
  uniq (without current requested)

/-- Lines 372-386 of `removeFeatures`: the `removing` list — the requested
names plus eslintTS when typescript or eslint is gone, jestTS when
typescript or jest is gone, and typedoc when typescript is gone, then
`_.uniq`. -/
def removeRemoving (current requested : List String) : List String :=
  let nf := removeNewFeatures current requested
  let r1 := if "typescript" ∉ nf ∨ "eslint" ∉ nf
    then requested ++ ["eslintTS"] else requested
  let r2 := if "typescript" ∉ nf ∨ "jest" ∉ nf then r1 ++ ["jestTS"] else r1
  let r3 := if "typescript" ∉ nf then r2 ++ ["typedoc"] else r2
  uniq r3

/-- Line 388: the post-removal feature list
`_.without(newFeatures, ...removing)`. -/
def removeResolve (current requested : List String) : List String :=
  without (removeNewFeatures current requested)
    (removeRemoving current requested)

/-! ### The reconciliation engine (class XarcModuleDev) -/

/-- The manifest: its dependency sections plus the tool block entry
`[myPkgName].features` that `finish` writes the active feature list into
(`none` when the block is absent).  Everything else in `package.json` is
untouched by the engine operations modelled here. -/
structure Pkg where
  sections : Sections
  featuresBlock : Option (List String)
deriving DecidableEq, Repr

/-- The mutable state of `XarcModuleDev`: the manifest, the serialized
snapshot taken at load time (`_existAppPkgData`), and the feature
bookkeeping lists. -/
structure Engine where
  appPkg : Pkg
  existAppPkgData : Pkg
  features : List String
  removedFeatures : List String
  changedFeatures : List String
  depsChanges : List String
deriving DecidableEq, Repr

/-- `_availableFeatures`: feature name ↦ descriptor; `none` models a name
that is not a key of the catalog (a JS property read yielding
`undefined`). -/
def Catalog : Type := String → Option Feature

/-- `appPkgChanged()`: the serialized manifest differs from the snapshot. -/
def appPkgChanged (st : Engine) : Bool :=
  decide (st.existAppPkgData ≠ st.appPkg)

/-- The mutation loop of `addFeatures` (lines 341-347): for every resolved
feature not already active, look its descriptor up (a missing catalog entry
makes the JS code throw: modelled as `Except.error` carrying the state at
the throw) and merge its dependencies into the manifest, recording it as
changed. -/
def addFeaturesLoop (cat : Catalog) : Engine → List String → Except Engine Engine
  | st, [] => .ok st
  | st, f :: rest =>
    if f ∈ st.features then addFeaturesLoop cat st rest
    else
      match cat f with
      | none => .error st
      | some ft =>
        addFeaturesLoop cat
          { st with
            appPkg := { st.appPkg with
              sections := ft.updateToPkg st.appPkg.sections },
            changedFeatures := st.changedFeatures ++ [f] } rest

/-- `XarcModuleDev.addFeatures(...features)` (lines 322-354). -/
def addFeaturesE (cat : Catalog) (st : Engine) (features : List String) :
    Except Engine Engine :=
  match addFeaturesLoop cat st (addResolve st.features features) with
  | .error e => .error e
  | .ok st₁ =>
    let st₂ := { st₁ with
      features := updateFeaturesList (addResolve st.features features) }
    .ok (if appPkgChanged st₂
      then { st₂ with depsChanges := st₂.depsChanges ++ st₂.changedFeatures }
      else st₂)

/-- The mutation loop of `removeFeatures` (lines 390-396): for every name in
`removing` that is currently active, look its descriptor up and delete its
dependencies from the manifest, recording it as removed; inactive names are
skipped. -/
def removeFeaturesLoop (cat : Catalog) :
    Engine → List String → Except Engine Engine
  | st, [] => .ok st
  | st, f :: rest =>
    if f ∈ st.features then
      match cat f with
      | none => .error st
      | some ft =>
        removeFeaturesLoop cat
          { st with
            appPkg := { st.appPkg with
              sections := ft.removeFromPkg st.appPkg.sections },
            removedFeatures := st.removedFeatures ++ [f] } rest
    else removeFeaturesLoop cat st rest

/-- `XarcModuleDev.removeFeatures(...features)` (lines 370-406).
`updateTsConfigTypes`/`setupTsConfig` touch `tsconfig.json`, not the
manifest, and are outside this model. -/
def removeFeaturesE (cat : Catalog) (st : Engine) (features : List String) :
    Except Engine Engine :=
  match removeFeaturesLoop cat st (removeRemoving st.features features) with
  | .error e => .error e
  | .ok st₁ =>
    let st₂ := { st₁ with
      features := updateFeaturesList (removeResolve st.features features) }
    .ok (if appPkgChanged st₂
      then { st₂ with depsChanges := st₂.depsChanges ++ st₂.removedFeatures }
      else st₂)

/-- `updateFeaturesFromDeps` (lines 269-278) composed with the filter of
`loadAppPkg`: the features, in the object's key order, whose dependency
entries are all already present in the manifest.  (The engine's catalog
always holds these five names.) -/
def featuresFromDeps (cat : Catalog) (p : Pkg) : List String :=
  ["eslint", "typescript", "typedoc", "mocha", "tap"].filter
    (fun n => ((cat n).map (fun ft => ft.checkPkg p.sections)).getD false)

/-- `loadAppPkg` (lines 257-267): derived features, concatenated with the
feature list stored in the manifest's tool block, falsy entries dropped,
`_.uniq`ed and sorted. -/
def loadFeatures (cat : Catalog) (p : Pkg) : List String :=
  sortStrings (uniq
    ((featuresFromDeps cat p ++ p.featuresBlock.getD []).filter
      (fun s => decide (s ≠ ""))))

/-- A freshly constructed engine (constructor lines 105-113 plus
`loadAppPkg`): snapshot taken, features derived, bookkeeping empty. -/
def mkEngine (cat : Catalog) (p : Pkg) : Engine :=
  ⟨p, p, loadFeatures cat p, [], [], []⟩

/-! ### `finish()` (lines 688-714) -/

/-- Observable events of one `finish()` invocation. -/
inductive Ev where
  | teardown (f : String)
  | setup (f : String)
  | write
deriving DecidableEq, Repr

/-- Run one callback per feature name, threading the manifest through
(the real callbacks mutate `this._appPkg` and may throw; they are modelled
as abstract manifest transformers returning `Except`).  Returns the emitted
events and the outcome; a throw aborts the run. -/
def runCallbacks (cb : String → Pkg → Except String Pkg) (mk : String → Ev) :
    List String → Pkg → List Ev × Except String Pkg
  | [], p => ([], .ok p)
  | f :: rest, p =>
    match cb f p with
    | .error e => ([mk f], .error e)
    | .ok p' =>
      let r := runCallbacks cb mk rest p'
      (mk f :: r.1, r.2)

/-- `_.set(this._appPkg, [this._myPkg.name, "features"], this._features)`. -/
def setFeaturesBlock (p : Pkg) (feats : List String) : Pkg :=
  { p with featuresBlock := some feats }

/-- `saveAppPkgJson` (lines 413-421): write the manifest back iff its
serialized form differs from the load-time snapshot, refreshing the
snapshot; returns whether it wrote. -/
def saveAppPkgJson (st : Engine) : Engine × Bool :=
  if st.existAppPkgData ≠ st.appPkg
  then ({ st with existAppPkgData := st.appPkg }, true)
  else (st, false)

/-- `finish()` (lines 688-714): teardown callbacks for the removed features
in removal order, setup callbacks for the changed features in addition
order, then persist the feature list into the tool block and save the
manifest at most once.  A callback throw aborts with that error; the
`Ev.write` event marks the manifest write.  (The console summary of
`_actionRecords` is not modelled.) -/
def finishE (tearCb setupCb : String → Pkg → Except String Pkg)
    (st : Engine) : List Ev × Except String (Engine × Bool) :=
  match runCallbacks tearCb Ev.teardown st.removedFeatures st.appPkg with
  | (evs₁, .error e) => (evs₁, .error e)
  | (evs₁, .ok p₁) =>
    match runCallbacks setupCb Ev.setup st.changedFeatures p₁ with
    | (evs₂, .error e) => (evs₁ ++ evs₂, .error e)
    | (evs₂, .ok p₂) =>
      let st₂ := { st with appPkg := setFeaturesBlock p₂ st.features }
      let sv := saveAppPkgJson st₂
      (evs₁ ++ evs₂ ++ (if sv.2 then [Ev.write] else []), .ok sv)

/-! ### A concrete catalog instance -/

/-- Modelled from the spec: the contents of the feature catalog, which the
code reads from the bundled resources `config/features-deps.json` and the
per-feature `package.json` files under `config/` — data files that are not
part of `src/`.  Spec §6: "a static table mapping feature name →
package name → version-spec pairs"; §8 fixes
`typescript ↦ devDeps {typescript: "^4.0.0"}` and `mocha ↦ {mocha:
"^9.0.0"}`; the remaining features carry one representative dev dependency
named after their main package. -/
def specCatalog : Catalog := fun n =>
  if n = "typedoc" then some ⟨"typedoc", [], [("typedoc", "^0.17.0")]⟩
  else if n = "typescript" then
    some ⟨"typescript", [], [("typescript", "^4.0.0")]⟩
  else if n = "eslint" then some ⟨"eslint", [], [("eslint", "^7.0.0")]⟩
  else if n = "eslintTS" then
    some ⟨"eslintTS", [], [("@typescript-eslint/eslint-plugin", "^4.0.0")]⟩
  else if n = "mocha" then some ⟨"mocha", [], [("mocha", "^9.0.0")]⟩
  else if n = "tap" then some ⟨"tap", [], [("tap", "^15.0.0")]⟩
  else if n = "prettier" then some ⟨"prettier", [], [("prettier", "^2.0.0")]⟩
  else if n = "jest" then some ⟨"jest", [], [("jest", "^26.0.0")]⟩
  else if n = "jestTS" then some ⟨"jestTS", [], [("ts-jest", "^26.0.0")]⟩
  else none

/-- The keys of `_availableFeatures` (lines 240-250). -/
def catalogNames : List String :=
  ["typedoc", "typescript", "eslint", "eslintTS", "mocha", "tap",
    "prettier", "jest", "jestTS"]

/-- A manifest with no dependency sections and no tool block. -/
def emptyPkg : Pkg := ⟨[], none⟩

/-- Extract the engine from either outcome (the state at the throw on
error). -/
def exOk (x : Except Engine Engine) : Engine :=
  match x with
  | .ok st => st
  | .error st => st

/-! ### Membership lemmas for the resolver -/

theorem mem_addStep1 (nf : List String) (a : String) :
    a ∈ addStep1 nf ↔
      a ∈ nf ∨ (a = "eslintTS" ∧ "typescript" ∈ nf ∧ "eslint" ∈ nf) := by
  unfold addStep1
  by_cases h : "typescript" ∈ nf ∧ "eslint" ∈ nf
  · rw [if_pos h]
    simp only [List.mem_append, List.mem_singleton, h, and_true]
  · rw [if_neg h]
    tauto

theorem mem_addStep2 (nf : List String) (a : String) :
    a ∈ addStep2 nf ↔
      a ∈ nf ∨ (a = "jestTS" ∧ "jest" ∈ nf ∧ "typescript" ∈ nf) := by
  unfold addStep2
  by_cases h : "jest" ∈ nf ∧ "typescript" ∈ nf
  · rw [if_pos h]
    simp only [List.mem_append, List.mem_singleton, h, and_true]
  · rw [if_neg h]
    tauto

theorem mem_addStep3 (nf : List String) (a : String) :
    a ∈ addStep3 nf ↔ a ∈ nf ∨ (a = "typescript" ∧ "typedoc" ∈ nf) := by
  unfold addStep3
  by_cases h : "typedoc" ∈ nf
  · rw [if_pos h]
    simp only [List.mem_append, List.mem_singleton, h, and_true]
  · rw [if_neg h]
    tauto

theorem mem_addResolve_iff (c q : List String) (a : String) :
    a ∈ addResolve c q ↔
      a ∈ c ++ q ∨
      (a = "eslintTS" ∧ "typescript" ∈ c ++ q ∧ "eslint" ∈ c ++ q) ∨
      (a = "jestTS" ∧ "jest" ∈ c ++ q ∧ "typescript" ∈ c ++ q) ∨
      (a = "typescript" ∧ "typedoc" ∈ c ++ q) := by
  unfold addResolve
  rw [mem_uniq]
  simp only [mem_addStep3, mem_addStep2, mem_addStep1]
  simp only [show ("typedoc" : String) ≠ "eslintTS" from by decide,
    show ("typedoc" : String) ≠ "jestTS" from by decide,
    show ("jest" : String) ≠ "eslintTS" from by decide,
    show ("typescript" : String) ≠ "eslintTS" from by decide,
    show ("typescript" : String) ≠ "jestTS" from by decide,
    false_and, and_false, or_false]
  tauto

theorem mem_updateFeaturesList (l : List String) (a : String) :
    a ∈ updateFeaturesList l ↔ a ∈ l := by
  rw [updateFeaturesList, mem_uniq, mem_sortStrings]

theorem nodup_updateFeaturesList (l : List String) :
    (updateFeaturesList l).Nodup :=
  nodup_uniq _

theorem sorted_updateFeaturesList (l : List String) :
    List.Sorted sLe (updateFeaturesList l) :=
  sorted_uniq (sorted_sortStrings l)

/-- A sorted duplicate-free list is fixed by `updateFeaturesList` on any
list with the same members. -/
theorem updateFeaturesList_eq_of_mem_iff {l m : List String}
    (hs : List.Sorted sLe l) (hn : l.Nodup)
    (hm : ∀ a, a ∈ m ↔ a ∈ l) : updateFeaturesList m = l :=
  strictSorted_ext
    (pairwise_lt_of_sorted_nodup (sorted_updateFeaturesList m)
      (nodup_updateFeaturesList m))
    (pairwise_lt_of_sorted_nodup hs hn)
    (fun a => (mem_updateFeaturesList m a).trans (hm a))

theorem mem_removeNewFeatures (c q : List String) (a : String) :
    a ∈ removeNewFeatures c q ↔ a ∈ c ∧ a ∉ q := by
  rw [removeNewFeatures, mem_uniq, mem_without]

theorem mem_removeRemoving_iff (c q : List String) (a : String) :
    a ∈ removeRemoving c q ↔
      a ∈ q ∨
      (a = "eslintTS" ∧ ("typescript" ∉ removeNewFeatures c q ∨
        "eslint" ∉ removeNewFeatures c q)) ∨
      (a = "jestTS" ∧ ("typescript" ∉ removeNewFeatures c q ∨
        "jest" ∉ removeNewFeatures c q)) ∨
      (a = "typedoc" ∧ "typescript" ∉ removeNewFeatures c q) := by
  unfold removeRemoving
  rw [mem_uniq]
  split_ifs with h1 h2 h3 <;>
    (try simp only [List.mem_append, List.mem_singleton]) <;>
    tauto

theorem mem_removeResolve (c q : List String) (a : String) :
    a ∈ removeResolve c q ↔
      a ∈ removeNewFeatures c q ∧ a ∉ removeRemoving c q :=
  mem_without _ _ _

/-! ### Lemmas about the engine loops -/

theorem addFeaturesLoop_features (cat : Catalog) :
    ∀ (l : List String) (st : Engine),
      (exOk (addFeaturesLoop cat st l)).features = st.features := by
  intro l
  induction l with
  | nil => intro st; rfl
  | cons f rest ih =>
    intro st
    rw [addFeaturesLoop]
    by_cases hf : f ∈ st.features
    · rw [if_pos hf]
      exact ih st
    · rw [if_neg hf]
      cases hcat : cat f with
      | none => rfl
      | some ft => exact ih _

theorem addFeaturesLoop_skip (cat : Catalog) :
    ∀ (l : List String) (st : Engine), (∀ f ∈ l, f ∈ st.features) →
      addFeaturesLoop cat st l = .ok st := by
  intro l
  induction l with
  | nil => intro st _; rfl
  | cons f rest ih =>
    intro st h
    rw [addFeaturesLoop, if_pos (h f (List.mem_cons_self f rest))]
    exact ih st (fun g hg => h g (List.mem_cons_of_mem f hg))

theorem addFeaturesLoop_isOk (cat : Catalog) :
    ∀ (l : List String) (st : Engine),
      (∀ f ∈ l, f ∈ st.features ∨ (cat f).isSome) →
      (addFeaturesLoop cat st l).isOk := by
  intro l
  induction l with
  | nil => intro st _; rfl
  | cons f rest ih =>
    intro st h
    rw [addFeaturesLoop]
    by_cases hf : f ∈ st.features
    · rw [if_pos hf]
      exact ih st (fun g hg => h g (List.mem_cons_of_mem f hg))
    · rw [if_neg hf]
      cases hcat : cat f with
      | none =>
        rcases h f (List.mem_cons_self f rest) with hc | hc
        · exact absurd hc hf
        · rw [hcat] at hc
          simp [Option.isSome] at hc
      | some ft =>
        exact ih _ (fun g hg => by
          simpa using h g (List.mem_cons_of_mem f hg))

theorem addFeaturesLoop_isErr (cat : Catalog) :
    ∀ (l : List String) (st : Engine) (g : String), g ∈ l →
      g ∉ st.features → cat g = none →
      (addFeaturesLoop cat st l).isOk = false := by
  intro l
  induction l with
  | nil => intro st g hg; simp at hg
  | cons f rest ih =>
    intro st g hg hgf hcat
    rw [addFeaturesLoop]
    by_cases hf : f ∈ st.features
    · rw [if_pos hf]
      rcases List.mem_cons.mp hg with rfl | hg'
      · exact absurd hf hgf
      · exact ih st g hg' hgf hcat
    · rw [if_neg hf]
      cases hcf : cat f with
      | none => rfl
      | some ft =>
        rcases List.mem_cons.mp hg with rfl | hg'
        · rw [hcf] at hcat
          cases hcat
        · exact ih _ g hg' (by simpa using hgf) hcat

theorem removeFeaturesLoop_features (cat : Catalog) :
    ∀ (l : List String) (st : Engine),
      (exOk (removeFeaturesLoop cat st l)).features = st.features := by
  intro l
  induction l with
  | nil => intro st; rfl
  | cons f rest ih =>
    intro st
    rw [removeFeaturesLoop]
    by_cases hf : f ∈ st.features
    · rw [if_pos hf]
      cases hcat : cat f with
      | none => rfl
      | some ft => exact ih _
    · rw [if_neg hf]
      exact ih st

theorem removeFeaturesLoop_isOk (cat : Catalog) :
    ∀ (l : List String) (st : Engine),
      (∀ f ∈ l, f ∈ st.features → (cat f).isSome) →
      (removeFeaturesLoop cat st l).isOk := by
  intro l
  induction l with
  | nil => intro st _; rfl
  | cons f rest ih =>
    intro st h
    rw [removeFeaturesLoop]
    by_cases hf : f ∈ st.features
    · rw [if_pos hf]
      cases hcat : cat f with
      | none =>
        have := h f (List.mem_cons_self f rest) hf
        rw [hcat] at this
        simp [Option.isSome] at this
      | some ft =>
        exact ih _ (fun g hg hgf => h g (List.mem_cons_of_mem f hg)
          (by simpa using hgf))
    · rw [if_neg hf]
      exact ih st (fun g hg hgf => h g (List.mem_cons_of_mem f hg) hgf)

theorem removeFeaturesLoop_removed (cat : Catalog) :
    ∀ (l : List String) (st st' : Engine),
      removeFeaturesLoop cat st l = .ok st' →
      ∀ f ∈ st'.removedFeatures,
        f ∈ st.removedFeatures ∨ f ∈ st.features := by
  intro l
  induction l with
  | nil =>
    intro st st' h f hf
    cases h
    exact Or.inl hf
  | cons g rest ih =>
    intro st st' h f hf
    rw [removeFeaturesLoop] at h
    by_cases hg : g ∈ st.features
    · rw [if_pos hg] at h
      cases hcat : cat g with
      | none =>
        rw [hcat] at h
        cases h
      | some ft =>
        rw [hcat] at h
        rcases ih _ _ h f hf with hmem | hmem
        · simp only [List.mem_append, List.mem_singleton] at hmem
          rcases hmem with hmem | rfl
          · exact Or.inl hmem
          · exact Or.inr hg
        · exact Or.inr hmem
    · rw [if_neg hg] at h
      exact ih _ _ h f hf

theorem addFeaturesE_ok_inv {cat : Catalog} {st : Engine}
    {F : List String} {st₁ : Engine}
    (h : addFeaturesE cat st F = .ok st₁) :
    st₁.features = updateFeaturesList (addResolve st.features F) ∧
    ∃ stA, addFeaturesLoop cat st (addResolve st.features F) = .ok stA ∧
      st₁.appPkg = stA.appPkg ∧
      st₁.changedFeatures = stA.changedFeatures ∧
      st₁.removedFeatures = stA.removedFeatures := by
  unfold addFeaturesE at h
  cases hloop : addFeaturesLoop cat st (addResolve st.features F) with
  | error e =>
    rw [hloop] at h
    cases h
  | ok stA =>
    rw [hloop] at h
    by_cases hch : appPkgChanged
        { stA with features := updateFeaturesList (addResolve st.features F) }
    · simp only [hch, if_true, Except.ok.injEq] at h
      subst h
      exact ⟨rfl, stA, rfl, rfl, rfl, rfl⟩
    · simp only [hch, if_false, Except.ok.injEq] at h
      subst h
      exact ⟨rfl, stA, rfl, rfl, rfl, rfl⟩

theorem removeFeaturesE_ok_inv {cat : Catalog} {st : Engine}
    {F : List String} {st₁ : Engine}
    (h : removeFeaturesE cat st F = .ok st₁) :
    st₁.features = updateFeaturesList (removeResolve st.features F) ∧
    ∃ stA, removeFeaturesLoop cat st (removeRemoving st.features F)
        = .ok stA ∧
      st₁.appPkg = stA.appPkg ∧
      st₁.changedFeatures = stA.changedFeatures ∧
      st₁.removedFeatures = stA.removedFeatures := by
  unfold removeFeaturesE at h
  cases hloop : removeFeaturesLoop cat st (removeRemoving st.features F) with
  | error e =>
    rw [hloop] at h
    cases h
  | ok stA =>
    rw [hloop] at h
    by_cases hch : appPkgChanged
        { stA with
          features := updateFeaturesList (removeResolve st.features F) }
    · simp only [hch, if_true, Except.ok.injEq] at h
      subst h
      exact ⟨rfl, stA, rfl, rfl, rfl, rfl⟩
    · simp only [hch, if_false, Except.ok.injEq] at h
      subst h
      exact ⟨rfl, stA, rfl, rfl, rfl, rfl⟩

/-! ### Claim C1 -/

/-- C1, counterexample: the implication closure fails as stated.  Starting
from active set {eslint} and requesting [typedoc], the resolved set contains
typescript (pushed by the typedoc implication, which runs after the
eslintTS check) and eslint, but not eslintTS. -/
theorem c1_implication_closure_cex :
    "typescript" ∈ updateFeaturesList (addResolve ["eslint"] ["typedoc"]) ∧
    "eslint" ∈ updateFeaturesList (addResolve ["eslint"] ["typedoc"]) ∧
    "eslintTS" ∉ updateFeaturesList (addResolve ["eslint"] ["typedoc"]) := by
  decide

/-- C1, amended: the implications of `addFeatures` hold with the first two
premises read over the pre-implication union of the current and requested
features (the checks run before the typedoc implication can introduce
typescript): if typescript and eslint are both in current ++ requested then
eslintTS is in the resolved set; if jest and typescript are both in
current ++ requested then jestTS is in it; and if typedoc is in the
resolved set then typescript is in it unconditionally. -/
theorem c1_implication_closure (current requested : List String) :
    ("typescript" ∈ current ++ requested →
      "eslint" ∈ current ++ requested →
      "eslintTS" ∈ updateFeaturesList (addResolve current requested)) ∧
    ("jest" ∈ current ++ requested →
      "typescript" ∈ current ++ requested →
      "jestTS" ∈ updateFeaturesList (addResolve current requested)) ∧
    ("typedoc" ∈ updateFeaturesList (addResolve current requested) →
      "typescript" ∈ updateFeaturesList (addResolve current requested)) := by
  refine ⟨?_, ?_, ?_⟩
  · intro hts he
    rw [mem_updateFeaturesList, mem_addResolve_iff]
    exact Or.inr (Or.inl ⟨rfl, hts, he⟩)
  · intro hj hts
    rw [mem_updateFeaturesList, mem_addResolve_iff]
    exact Or.inr (Or.inr (Or.inl ⟨rfl, hj, hts⟩))
  · intro htd
    rw [mem_updateFeaturesList, mem_addResolve_iff] at htd
    have htd' : "typedoc" ∈ current ++ requested := by
      rcases htd with h | h | h | h
      · exact h
      · exact absurd h.1 (by decide)
      · exact absurd h.1 (by decide)
      · exact absurd h.1 (by decide)
    rw [mem_updateFeaturesList, mem_addResolve_iff]
    exact Or.inr (Or.inr (Or.inr ⟨rfl, htd'⟩))

/-- C1, witness for the amended theorem at a concrete input. -/
theorem c1_implication_closure_w :
    "eslintTS" ∈ updateFeaturesList (addResolve ["typescript"] ["eslint"]) :=
  (c1_implication_closure ["typescript"] ["eslint"]).1 (by decide) (by decide)

/-! ### Claim C2 -/

/-- Features that are not removal-companions and survive the first stage of
`removeFeatures` survive resolution. -/
theorem mem_removeResolve_of_stable {c q : List String} {a : String}
    (h1 : a ≠ "eslintTS") (h2 : a ≠ "jestTS") (h3 : a ≠ "typedoc")
    (h : a ∈ removeNewFeatures c q) : a ∈ removeResolve c q := by
  rw [mem_removeResolve]
  refine ⟨h, ?_⟩
  intro hmem
  rw [mem_removeRemoving_iff] at hmem
  rcases hmem with hq | h' | h' | h'
  · exact ((mem_removeNewFeatures c q a).mp h).2 hq
  · exact h1 h'.1
  · exact h2 h'.1
  · exact h3 h'.1

/-- C2: the removal cascade of `removeFeatures`.  Removing typescript from
the active set {eslint, eslintTS, typedoc, typescript} leaves exactly
{eslint} in one pass; in general, whenever typescript or eslint is absent
from the resolved set so is eslintTS, whenever typescript or jest is absent
so is jestTS, and whenever typescript is absent so is typedoc; and the
features recorded as removed (which drive the manifest mutation) were all
active before the call — names implied for removal but not active are
silently ignored. -/
theorem c2_removal_cascade :
    (updateFeaturesList (removeResolve
        ["eslint", "eslintTS", "typedoc", "typescript"] ["typescript"])
      = ["eslint"]) ∧
    (∀ current requested : List String,
      (("typescript" ∉ updateFeaturesList
          (removeResolve current requested) ∨
        "eslint" ∉ updateFeaturesList (removeResolve current requested)) →
        "eslintTS" ∉ updateFeaturesList (removeResolve current requested)) ∧
      (("typescript" ∉ updateFeaturesList
          (removeResolve current requested) ∨
        "jest" ∉ updateFeaturesList (removeResolve current requested)) →
        "jestTS" ∉ updateFeaturesList (removeResolve current requested)) ∧
      ("typescript" ∉ updateFeaturesList (removeResolve current requested) →
        "typedoc" ∉ updateFeaturesList
          (removeResolve current requested))) ∧
    (∀ (cat : Catalog) (st : Engine) (requested : List String)
        (st' : Engine),
      removeFeaturesE cat st requested = .ok st' →
      ∀ f ∈ st'.removedFeatures,
        f ∈ st.removedFeatures ∨ f ∈ st.features) := by
  refine ⟨by decide, ?_, ?_⟩
  · intro c q
    have hstable : ∀ a : String, a ≠ "eslintTS" → a ≠ "jestTS" →
        a ≠ "typedoc" →
        a ∉ updateFeaturesList (removeResolve c q) →
        a ∉ removeNewFeatures c q := by
      intro a ha1 ha2 ha3 hnot hmem
      exact hnot ((mem_updateFeaturesList _ _).mpr
        (mem_removeResolve_of_stable ha1 ha2 ha3 hmem))
    have hdrop : ∀ a : String, a ∈ removeRemoving c q →
        a ∉ updateFeaturesList (removeResolve c q) := by
      intro a hmem hcontra
      rw [mem_updateFeaturesList, mem_removeResolve] at hcontra
      exact hcontra.2 hmem
    refine ⟨?_, ?_, ?_⟩
    · intro h
      refine hdrop _ ?_
      rw [mem_removeRemoving_iff]
      refine Or.inr (Or.inl ⟨rfl, ?_⟩)
      rcases h with h | h
      · exact Or.inl (hstable _ (by decide) (by decide) (by decide) h)
      · exact Or.inr (hstable _ (by decide) (by decide) (by decide) h)
    · intro h
      refine hdrop _ ?_
      rw [mem_removeRemoving_iff]
      refine Or.inr (Or.inr (Or.inl ⟨rfl, ?_⟩))
      rcases h with h | h
      · exact Or.inl (hstable _ (by decide) (by decide) (by decide) h)
      · exact Or.inr (hstable _ (by decide) (by decide) (by decide) h)
    · intro h
      refine hdrop _ ?_
      rw [mem_removeRemoving_iff]
      exact Or.inr (Or.inr (Or.inr ⟨rfl,
        hstable _ (by decide) (by decide) (by decide) h⟩))
  · intro cat st requested st' h f hf
    obtain ⟨-, stA, hloop, -, -, hrem⟩ := removeFeaturesE_ok_inv h
    exact removeFeaturesLoop_removed cat _ st stA hloop f (hrem ▸ hf)

/-- C2, witness for the cascade at a concrete input. -/
theorem c2_removal_cascade_w :
    "eslintTS" ∉ updateFeaturesList
      (removeResolve ["eslint", "eslintTS", "typescript"] ["eslint"]) :=
  (c2_removal_cascade.2.1 ["eslint", "eslintTS", "typescript"]
    ["eslint"]).1 (by decide)

/-! ### Claim C6 -/

/-- A fresh engine over the empty manifest. -/
def c6Base : Engine := mkEngine specCatalog emptyPkg

/-- The engine after one `addFeatures(["eslint", "typedoc"])`. -/
def c6Once : Engine := exOk (addFeaturesE specCatalog c6Base
  ["eslint", "typedoc"])

/-- The engine after the same call a second time. -/
def c6Twice : Engine := exOk (addFeaturesE specCatalog c6Once
  ["eslint", "typedoc"])

/-- C6, counterexample: `addFeatures` is not idempotent.  Requesting
{eslint, typedoc} once resolves to {eslint, typedoc, typescript} (the
eslintTS check ran before typescript was pushed); the identical second call
sees typescript and eslint both active, pushes eslintTS, and mutates both
the active feature set and the manifest again. -/
theorem c6_idempotence_cex :
    (addFeaturesE specCatalog c6Base ["eslint", "typedoc"]).isOk = true ∧
    (addFeaturesE specCatalog c6Once ["eslint", "typedoc"]).isOk = true ∧
    c6Twice.features ≠ c6Once.features ∧
    c6Twice.appPkg ≠ c6Once.appPkg := by
  decide

/-- C6, amended: `addFeatures(F)` twice is the same as once — same manifest
content and same active feature set — provided typescript did not enter the
resolved set solely through the typedoc implication (i.e. if typescript is
active after the first call, it was already in current ∪ F). -/
theorem c6_idempotence (cat : Catalog) (st : Engine) (F : List String)
    (st₁ : Engine) (h1 : addFeaturesE cat st F = .ok st₁)
    (hts : "typescript" ∈ st₁.features →
      "typescript" ∈ st.features ++ F) :
    ∃ st₂, addFeaturesE cat st₁ F = .ok st₂ ∧
      st₂.appPkg = st₁.appPkg ∧ st₂.features = st₁.features := by
  obtain ⟨hfeat, stA, hloop, hpkg, hch, hrem⟩ := addFeaturesE_ok_inv h1
  have hF : ∀ a ∈ F, a ∈ st₁.features := by
    intro a ha
    rw [hfeat, mem_updateFeaturesList, mem_addResolve_iff]
    exact Or.inl (List.mem_append.mpr (Or.inr ha))
  have hmem1 : ∀ b : String, b ≠ "eslintTS" → b ≠ "jestTS" →
      b ≠ "typescript" → b ∈ st₁.features → b ∈ st.features ++ F := by
    intro b hb1 hb2 hb3 hb
    rw [hfeat, mem_updateFeaturesList, mem_addResolve_iff] at hb
    rcases hb with h | h | h | h
    · exact h
    · exact absurd h.1 hb1
    · exact absurd h.1 hb2
    · exact absurd h.1 hb3
  have hunion : ∀ b : String, b ∈ st₁.features ++ F → b ∈ st₁.features := by
    intro b hb
    rcases List.mem_append.mp hb with hb | hb
    · exact hb
    · exact hF b hb
  have hsub : ∀ a ∈ addResolve st₁.features F, a ∈ st₁.features := by
    intro a ha
    rw [mem_addResolve_iff] at ha
    rcases ha with h | h | h | h
    · exact hunion a h
    · obtain ⟨rfl, hts', he⟩ := h
      rw [hfeat, mem_updateFeaturesList, mem_addResolve_iff]
      exact Or.inr (Or.inl ⟨rfl, hts (hunion _ hts'),
        hmem1 _ (by decide) (by decide) (by decide) (hunion _ he)⟩)
    · obtain ⟨rfl, hj, hts'⟩ := h
      rw [hfeat, mem_updateFeaturesList, mem_addResolve_iff]
      exact Or.inr (Or.inr (Or.inl ⟨rfl,
        hmem1 _ (by decide) (by decide) (by decide) (hunion _ hj),
        hts (hunion _ hts')⟩))
    · obtain ⟨rfl, htd⟩ := h
      rw [hfeat, mem_updateFeaturesList, mem_addResolve_iff]
      exact Or.inr (Or.inr (Or.inr ⟨rfl,
        hmem1 _ (by decide) (by decide) (by decide) (hunion _ htd)⟩))
  have hloop2 : addFeaturesLoop cat st₁ (addResolve st₁.features F)
      = .ok st₁ := addFeaturesLoop_skip cat _ st₁ hsub
  have hfeq : updateFeaturesList (addResolve st₁.features F)
      = st₁.features := by
    refine updateFeaturesList_eq_of_mem_iff ?_ ?_ ?_
    · rw [hfeat]
      exact sorted_updateFeaturesList _
    · rw [hfeat]
      exact nodup_updateFeaturesList _
    · intro a
      constructor
      · exact hsub a
      · intro ha
        rw [mem_addResolve_iff]
        exact Or.inl (List.mem_append.mpr (Or.inl ha))
  rcases he : addFeaturesE cat st₁ F with e | st₂
  · exfalso
    unfold addFeaturesE at he
    simp only [hloop2] at he
    exact Except.noConfusion he
  · refine ⟨st₂, rfl, ?_⟩
    unfold addFeaturesE at he
    simp only [hloop2] at he
    split_ifs at he with hc
    · injection he with he'
      subst he'
      exact ⟨rfl, hfeq⟩
    · injection he with he'
      subst he'
      exact ⟨rfl, hfeq⟩

/-- The engine after `addFeatures(["prettier"])` on a fresh empty
manifest. -/
def c6wOnce : Engine := exOk (addFeaturesE specCatalog
  (mkEngine specCatalog emptyPkg) ["prettier"])

/-- C6, witness for the amended theorem at a concrete input. -/
theorem c6_idempotence_w :
    ∃ st₂, addFeaturesE specCatalog c6wOnce ["prettier"] = .ok st₂ ∧
      st₂.appPkg = c6wOnce.appPkg ∧ st₂.features = c6wOnce.features :=
  c6_idempotence specCatalog (mkEngine specCatalog emptyPkg) ["prettier"]
    c6wOnce (by rfl) (by decide)

/-! ### Claims C3, C4, C8 — the dependency-section merger -/

theorem getSection_setKey_self (pkg : Sections) (sec : String) (o : Obj) :
    getSection (setKey pkg sec o) sec = o := by
  rw [getSection, lookupKey_setKey_self]
  rfl

theorem lookupKey_delKey_self {β : Type} (l : List (String × β))
    (k : String) : lookupKey (delKey l k) k = none := by
  rw [lookupKey_eq_none, mem_keysOf_delKey]
  simp

theorem setKey_eq_self {β : Type} : ∀ {l : List (String × β)} {k : String}
    {v : β}, lookupKey l k = some v → setKey l k v = l := by
  intro l
  induction l with
  | nil => intro k v h; cases h
  | cons kv rest ih =>
    intro k v h
    obtain ⟨k', v'⟩ := kv
    by_cases hk : k' = k
    · subst hk
      obtain rfl : v' = v := by simpa [lookupKey] using h
      simp [setKey]
    · simp only [lookupKey, if_neg hk] at h
      simp [setKey, hk, ih h]

/-- C3: merging a non-empty dependency mapping `D` into a manifest section
(`Feature.update` / `addSection`) yields a section whose key set is the
union of the pre-existing keys with `D`'s keys, whose keys are sorted
ascending by string comparison without duplicates, and in which every key
of `D` maps to `D`'s value (last write wins over any pre-existing
value). -/
theorem c3_merge_semantics (pkg : Sections) (sec : String) (D : Obj)
    (hD : D ≠ []) (hDnd : (keysOf D).Nodup)
    (hTnd : (keysOf (getSection pkg sec)).Nodup) :
    (∀ k, k ∈ keysOf (getSection (updateSec pkg D sec) sec) ↔
      k ∈ keysOf (getSection pkg sec) ∨ k ∈ keysOf D) ∧
    List.Sorted sLe (keysOf (getSection (updateSec pkg D sec) sec)) ∧
    (keysOf (getSection (updateSec pkg D sec) sec)).Nodup ∧
    (∀ k v, (k, v) ∈ D →
      lookupKey (getSection (updateSec pkg D sec) sec) k = some v) := by
  have hne : (applyDeps (getSection pkg sec) D).isEmpty = false := by
    rw [List.isEmpty_eq_false_iff_exists_mem]
    obtain ⟨⟨k, v⟩, hk⟩ := List.exists_mem_of_ne_nil D hD
    have : k ∈ keysOf (applyDeps (getSection pkg sec) D) := by
      rw [mem_keysOf_applyDeps]
      exact Or.inr (List.mem_map.mpr ⟨(k, v), hk, rfl⟩)
    obtain ⟨kv, hkv, -⟩ := List.mem_map.mp this
    exact ⟨kv, hkv⟩
  have hupd : updateSec pkg D sec
      = setKey pkg sec (sortObjKeys (applyDeps (getSection pkg sec) D)) := by
    simp only [updateSec, hne, Bool.false_eq_true, if_false]
  have hget : getSection (updateSec pkg D sec) sec
      = sortObjKeys (applyDeps (getSection pkg sec) D) := by
    rw [hupd, getSection_setKey_self]
  have hnd' : (keysOf (applyDeps (getSection pkg sec) D)).Nodup :=
    nodup_keysOf_applyDeps D hTnd
  refine ⟨?_, ?_, ?_, ?_⟩
  · intro k
    rw [hget, mem_keysOf_sortObjKeys, mem_keysOf_applyDeps]
  · rw [hget]
    exact sorted_keysOf_sortObjKeys _
  · rw [hget]
    exact nodup_keysOf_sortObjKeys hnd'
  · intro k v hkv
    rw [hget, lookupKey_sortObjKeys hnd']
    exact lookupKey_applyDeps_of_mem _ hDnd hkv

/-- C3, witness at a concrete input. -/
theorem c3_merge_semantics_w :
    lookupKey (getSection (updateSec
        [("devDependencies", [("zz", "1"), ("mocha", "^8.0.0")])]
        [("mocha", "^9.0.0"), ("chai", "^4.0.0")] "devDependencies")
      "devDependencies") "mocha" = some "^9.0.0" :=
  (c3_merge_semantics
    [("devDependencies", [("zz", "1"), ("mocha", "^8.0.0")])]
    "devDependencies" [("mocha", "^9.0.0"), ("chai", "^4.0.0")]
    (by decide) (by decide) (by decide)).2.2.2 "mocha" "^9.0.0" (by decide)

/-- C4: removing a dependency mapping from a section
(`Feature.remove` / `removeSection`) deletes each key of `deps` from the
section; when the remainder is empty the section key is deleted from the
manifest entirely, otherwise the remainder is written back with sorted
keys; keys of `deps` absent from the section are no-ops and raise no
error. -/
theorem c4_remove_semantics (pkg : Sections) (sec : String) (deps : Obj) :
    (∀ k ∈ keysOf deps,
      k ∉ keysOf (getSection (removeSec pkg deps sec) sec)) ∧
    (∀ k, k ∈ keysOf (getSection (removeSec pkg deps sec) sec) ↔
      k ∈ keysOf (getSection pkg sec) ∧ k ∉ keysOf deps) ∧
    (delKeys (getSection pkg sec) (keysOf deps) = [] →
      sec ∉ keysOf (removeSec pkg deps sec)) ∧
    (delKeys (getSection pkg sec) (keysOf deps) ≠ [] →
      getSection (removeSec pkg deps sec) sec
        = sortObjKeys (delKeys (getSection pkg sec) (keysOf deps)) ∧
      List.Sorted sLe (keysOf (getSection (removeSec pkg deps sec) sec))) ∧
    ((∀ k ∈ keysOf deps, k ∉ keysOf (getSection pkg sec)) →
      delKeys (getSection pkg sec) (keysOf deps) = getSection pkg sec) := by
  have hmem : ∀ k, k ∈ keysOf (getSection (removeSec pkg deps sec) sec) ↔
      k ∈ keysOf (getSection pkg sec) ∧ k ∉ keysOf deps := by
    intro k
    by_cases hemp : (delKeys (getSection pkg sec) (keysOf deps)).isEmpty
    · have h0 : delKeys (getSection pkg sec) (keysOf deps) = [] :=
        List.isEmpty_iff.mp hemp
      have : removeSec pkg deps sec = delKey pkg sec := by
        simp [removeSec, hemp]
      rw [this]
      have hnone : getSection (delKey pkg sec) sec = [] := by
        rw [getSection, lookupKey_delKey_self]
        rfl
      rw [hnone]
      constructor
      · intro h
        simp [keysOf] at h
      · intro h
        have := (mem_keysOf_delKeys (getSection pkg sec) (keysOf deps)
          k).mpr h
        rw [h0] at this
        simp [keysOf] at this
    · have : removeSec pkg deps sec = setKey pkg sec
          (sortObjKeys (delKeys (getSection pkg sec) (keysOf deps))) := by
        simp [removeSec, hemp]
      rw [this, getSection_setKey_self, mem_keysOf_sortObjKeys,
        mem_keysOf_delKeys]
  refine ⟨?_, hmem, ?_, ?_, ?_⟩
  · intro k hk hmem'
    exact ((hmem k).mp hmem').2 hk
  · intro h0
    have hemp : (delKeys (getSection pkg sec) (keysOf deps)).isEmpty := by
      rw [h0]
      rfl
    have : removeSec pkg deps sec = delKey pkg sec := by
      simp [removeSec, hemp]
    rw [this, mem_keysOf_delKey]
    simp
  · intro hne
    have hemp : (delKeys (getSection pkg sec) (keysOf deps)).isEmpty
        = false := by
      rcases h : delKeys (getSection pkg sec) (keysOf deps) with _ | _
      · exact absurd h hne
      · rfl
    have hrs : removeSec pkg deps sec = setKey pkg sec
        (sortObjKeys (delKeys (getSection pkg sec) (keysOf deps))) := by
      simp [removeSec, hemp]
    rw [hrs, getSection_setKey_self]
    exact ⟨rfl, sorted_keysOf_sortObjKeys _⟩
  · exact delKeys_of_disjoint

/-- C4, witness at a concrete input: removing typescript's dependency from a
section holding typescript and mocha leaves mocha only. -/
theorem c4_remove_semantics_w :
    "typescript" ∉ keysOf (getSection (removeSec
        [("devDependencies", [("typescript", "^4.0.0"),
          ("mocha", "^9.0.0")])]
        [("typescript", "^4.0.0")] "devDependencies") "devDependencies") :=
  (c4_remove_semantics
    [("devDependencies", [("typescript", "^4.0.0"), ("mocha", "^9.0.0")])]
    "devDependencies" [("typescript", "^4.0.0")]).1 "typescript" (by decide)

/-! ### Claim C8 -/

/-- C8, counterexample: merging an empty mapping does not leave the manifest
untouched.  When the section exists and is non-empty but unsorted, the
merge writes it back re-sorted, changing the key order. -/
theorem c8_empty_merge_cex :
    updateSec [("devDependencies", [("b", "1"), ("a", "1")])] []
        "devDependencies"
      ≠ [("devDependencies", [("b", "1"), ("a", "1")])] := by
  decide

/-- C8 (amended): merging an empty dependency mapping changes no key set,
no value and no other section of the manifest; the manifest is completely
untouched when the section is absent or empty, and also when the existing
section's keys are already in sorted order — but an existing unsorted
section is rewritten with its keys re-sorted. -/
theorem c8_empty_merge (pkg : Sections) (sec : String) :
    (getSection pkg sec = [] → updateSec pkg [] sec = pkg) ∧
    List.Perm (getSection (updateSec pkg [] sec) sec)
      (getSection pkg sec) ∧
    (∀ s', s' ≠ sec →
      getSection (updateSec pkg [] sec) s' = getSection pkg s') ∧
    keysOf (updateSec pkg [] sec) = keysOf pkg ∧
    (List.Pairwise (fun a b : String × String => sLe a.1 b.1)
        (getSection pkg sec) →
      updateSec pkg [] sec = pkg) := by
  by_cases hemp : (getSection pkg sec).isEmpty
  · have h0 : getSection pkg sec = [] := List.isEmpty_iff.mp hemp
    have hid : updateSec pkg [] sec = pkg := by
      simp [updateSec, applyDeps_nil, hemp]
    rw [hid]
    exact ⟨fun _ => rfl, List.Perm.refl _, fun _ _ => rfl, rfl,
      fun _ => rfl⟩
  · have hne : (getSection pkg sec).isEmpty = false := by
      simpa using hemp
    have hsome : lookupKey pkg sec = some (getSection pkg sec) := by
      rcases h : lookupKey pkg sec with _ | o
      · exfalso
        have h0 : getSection pkg sec = [] := by
          rw [getSection, h]
          rfl
        rw [h0] at hne
        simp at hne
      · rw [getSection, h]
        rfl
    have hupd : updateSec pkg [] sec
        = setKey pkg sec (sortObjKeys (getSection pkg sec)) := by
      simp only [updateSec, applyDeps_nil, hne, Bool.false_eq_true,
        if_false]
    have hsm : sec ∈ keysOf pkg := by
      rw [← lookupKey_isSome, hsome]
      rfl
    refine ⟨?_, ?_, ?_, ?_, ?_⟩
    · intro h0
      rw [h0] at hne
      simp at hne
    · rw [hupd, getSection_setKey_self]
      exact perm_sortObjKeys _
    · intro s' hs'
      simp only [hupd, getSection]
      rw [lookupKey_setKey_ne _ _ hs']
    · rw [hupd]
      exact keysOf_setKey_of_mem _ hsm
    · intro hsorted
      have hsort_eq : sortObjKeys (getSection pkg sec)
          = getSection pkg sec := List.Sorted.insertionSort_eq hsorted
      rw [hupd, hsort_eq]
      exact setKey_eq_self hsome

/-- C8, witness: on an already sorted section the empty merge is the
identity. -/
theorem c8_empty_merge_w :
    updateSec [("devDependencies", [("a", "1"), ("b", "1")])] []
        "devDependencies"
      = [("devDependencies", [("a", "1"), ("b", "1")])] :=
  (c8_empty_merge [("devDependencies", [("a", "1"), ("b", "1")])]
    "devDependencies").2.2.2.2 (by decide)

/-! ### Claims C9 and C10 -/

theorem addFeaturesE_err_inv {cat : Catalog} {st : Engine} {F : List String}
    {e : Engine} (h : addFeaturesE cat st F = .error e) :
    addFeaturesLoop cat st (addResolve st.features F) = .error e := by
  unfold addFeaturesE at h
  cases hloop : addFeaturesLoop cat st (addResolve st.features F) with
  | error e' =>
    rw [hloop] at h
    simp only [Except.error.injEq] at h
    rw [h]
  | ok st₁ =>
    rw [hloop] at h
    simp at h

theorem removeFeaturesE_err_inv {cat : Catalog} {st : Engine}
    {F : List String} {e : Engine}
    (h : removeFeaturesE cat st F = .error e) :
    removeFeaturesLoop cat st (removeRemoving st.features F) = .error e := by
  unfold removeFeaturesE at h
  cases hloop : removeFeaturesLoop cat st (removeRemoving st.features F) with
  | error e' =>
    rw [hloop] at h
    simp only [Except.error.injEq] at h
    rw [h]
  | ok st₁ =>
    rw [hloop] at h
    simp at h

/-- C9: after load and after every successful `addFeatures` or
`removeFeatures`, the active feature set is duplicate-free and sorted
ascending by string comparison; a call that throws leaves the feature list
exactly as it was, so every engine operation preserves the invariant. -/
theorem c9_features_invariant :
    (∀ (cat : Catalog) (p : Pkg),
      (loadFeatures cat p).Nodup ∧ List.Sorted sLe (loadFeatures cat p)) ∧
    (∀ (cat : Catalog) (st : Engine) (F : List String) (st' : Engine),
      addFeaturesE cat st F = .ok st' →
      st'.features.Nodup ∧ List.Sorted sLe st'.features) ∧
    (∀ (cat : Catalog) (st : Engine) (F : List String) (st' : Engine),
      removeFeaturesE cat st F = .ok st' →
      st'.features.Nodup ∧ List.Sorted sLe st'.features) ∧
    (∀ (cat : Catalog) (st : Engine) (F : List String) (e : Engine),
      addFeaturesE cat st F = .error e → e.features = st.features) ∧
    (∀ (cat : Catalog) (st : Engine) (F : List String) (e : Engine),
      removeFeaturesE cat st F = .error e → e.features = st.features) := by
  refine ⟨?_, ?_, ?_, ?_, ?_⟩
  · intro cat p
    constructor
    · exact nodup_sortStrings (nodup_uniq _)
    · exact sorted_sortStrings _
  · intro cat st F st' h
    rw [(addFeaturesE_ok_inv h).1]
    exact ⟨nodup_updateFeaturesList _, sorted_updateFeaturesList _⟩
  · intro cat st F st' h
    rw [(removeFeaturesE_ok_inv h).1]
    exact ⟨nodup_updateFeaturesList _, sorted_updateFeaturesList _⟩
  · intro cat st F e h
    have hloop := addFeaturesE_err_inv h
    have := addFeaturesLoop_features cat (addResolve st.features F) st
    rw [hloop] at this
    exact this
  · intro cat st F e h
    have hloop := removeFeaturesE_err_inv h
    have := removeFeaturesLoop_features cat (removeRemoving st.features F) st
    rw [hloop] at this
    exact this

/-- C9, witness: the invariant at a concrete successful call. -/
theorem c9_features_invariant_w :
    (exOk (addFeaturesE specCatalog (mkEngine specCatalog emptyPkg)
        ["mocha"])).features.Nodup ∧
    List.Sorted sLe (exOk (addFeaturesE specCatalog
        (mkEngine specCatalog emptyPkg) ["mocha"])).features :=
  c9_features_invariant.2.1 specCatalog (mkEngine specCatalog emptyPkg)
    ["mocha"] _ (by rfl)

theorem addFeaturesE_isOk_eq (cat : Catalog) (st : Engine)
    (F : List String) :
    (addFeaturesE cat st F).isOk
      = (addFeaturesLoop cat st (addResolve st.features F)).isOk := by
  unfold addFeaturesE
  cases addFeaturesLoop cat st (addResolve st.features F) <;> rfl

/-- C10: if every requested name is a key of the nine-entry feature catalog,
`addFeatures` never faults; a requested name outside the catalog that is
not already active makes it throw; and the throw can happen after the
manifest has already been mutated for earlier names of the same call
(concretely: requesting [typescript, bogus] on a fresh empty manifest
throws with typescript's dependencies already merged in). -/
theorem c10_add_safety :
    (∀ (cat : Catalog) (st : Engine) (F : List String),
      (∀ n ∈ catalogNames, (cat n).isSome) →
      (∀ f ∈ F, f ∈ catalogNames) →
      (addFeaturesE cat st F).isOk = true) ∧
    (∀ (cat : Catalog) (st : Engine) (F : List String) (g : String),
      g ∈ F → cat g = none → g ∉ st.features →
      (addFeaturesE cat st F).isOk = false) ∧
    ((addFeaturesE specCatalog (mkEngine specCatalog emptyPkg)
        ["typescript", "bogus"]).isOk = false ∧
      (exOk (addFeaturesE specCatalog (mkEngine specCatalog emptyPkg)
        ["typescript", "bogus"])).appPkg
        ≠ (mkEngine specCatalog emptyPkg).appPkg) := by
  refine ⟨?_, ?_, by decide⟩
  · intro cat st F hcat hF
    rw [addFeaturesE_isOk_eq]
    refine addFeaturesLoop_isOk cat _ st ?_
    intro f hf
    rw [mem_addResolve_iff] at hf
    rcases hf with h | h | h | h
    · rcases List.mem_append.mp h with h | h
      · exact Or.inl h
      · exact Or.inr (hcat f (hF f h))
    · exact Or.inr (h.1 ▸ hcat _ (by decide))
    · exact Or.inr (h.1 ▸ hcat _ (by decide))
    · exact Or.inr (h.1 ▸ hcat _ (by decide))
  · intro cat st F g hg hcat hgf
    rw [addFeaturesE_isOk_eq]
    refine addFeaturesLoop_isErr cat _ st g ?_ hgf hcat
    rw [mem_addResolve_iff]
    exact Or.inl (List.mem_append.mpr (Or.inr hg))

/-- C10, witness: a catalog-only request never faults, concretely. -/
theorem c10_add_safety_w :
    (addFeaturesE specCatalog (mkEngine specCatalog emptyPkg)
      ["mocha", "prettier"]).isOk = true :=
  c10_add_safety.1 specCatalog (mkEngine specCatalog emptyPkg)
    ["mocha", "prettier"] (by decide) (by decide)

/-! ### Claim C5 — `finish()` -/

theorem runCallbacks_ok_trace (cb : String → Pkg → Except String Pkg)
    (mk : String → Ev) :
    ∀ (fs : List String) (p p' : Pkg),
      (runCallbacks cb mk fs p).2 = .ok p' →
      (runCallbacks cb mk fs p).1 = fs.map mk := by
  intro fs
  induction fs with
  | nil => intro p p' _; rfl
  | cons f rest ih =>
    intro p p' h
    cases hcb : cb f p with
    | error e =>
      simp only [runCallbacks, hcb] at h
      exact Except.noConfusion h
    | ok p₁ =>
      simp only [runCallbacks, hcb] at h ⊢
      simp only [List.map_cons, List.cons.injEq, true_and]
      exact ih p₁ p' h

theorem runCallbacks_trace_shape (cb : String → Pkg → Except String Pkg)
    (mk : String → Ev) :
    ∀ (fs : List String) (p : Pkg) (ev : Ev),
      ev ∈ (runCallbacks cb mk fs p).1 → ∃ f, ev = mk f := by
  intro fs
  induction fs with
  | nil => intro p ev h; simp [runCallbacks] at h
  | cons f rest ih =>
    intro p ev h
    cases hcb : cb f p with
    | error e =>
      simp only [runCallbacks, hcb, List.mem_singleton] at h
      exact ⟨f, h⟩
    | ok p₁ =>
      simp only [runCallbacks, hcb] at h
      rcases List.mem_cons.mp h with rfl | h'
      · exact ⟨f, rfl⟩
      · exact ih p₁ ev h'

theorem runCallbacks_err_src (cb : String → Pkg → Except String Pkg)
    (mk : String → Ev) :
    ∀ (fs : List String) (p : Pkg) (e : String),
      (runCallbacks cb mk fs p).2 = .error e →
      ∃ f p', cb f p' = .error e := by
  intro fs
  induction fs with
  | nil => intro p e h; exact absurd h (by simp [runCallbacks])
  | cons f rest ih =>
    intro p e h
    cases hcb : cb f p with
    | error e' =>
      simp only [runCallbacks, hcb, Except.error.injEq] at h
      exact ⟨f, p, h ▸ hcb⟩
    | ok p₁ =>
      simp only [runCallbacks, hcb] at h
      exact ih p₁ e h

/-- C5: `finish()` runs every removed feature's teardown (in removal order)
and then every changed feature's setup (in addition order) before the
manifest write; the write happens at most once, exactly when the manifest
after the callbacks and the feature-block update differs from the as-loaded
snapshot; and if a callback throws, `finish` aborts with that callback's
error and the write never happens. -/
theorem c5_finish_semantics (tearCb setupCb : String → Pkg → Except String Pkg)
    (st : Engine) :
    (∀ e, (finishE tearCb setupCb st).2 = .error e →
      Ev.write ∉ (finishE tearCb setupCb st).1 ∧
      ∃ f p', tearCb f p' = .error e ∨ setupCb f p' = .error e) ∧
    (∀ (st' : Engine) (wrote : Bool),
      (finishE tearCb setupCb st).2 = .ok (st', wrote) →
      (finishE tearCb setupCb st).1
        = st.removedFeatures.map Ev.teardown
          ++ st.changedFeatures.map Ev.setup
          ++ (if wrote then [Ev.write] else []) ∧
      (wrote = true ↔ st'.appPkg ≠ st.existAppPkgData)) := by
  rcases hr1 : runCallbacks tearCb Ev.teardown st.removedFeatures st.appPkg
    with ⟨evs₁, r₁⟩
  cases r₁ with
  | error e₁ =>
    have hfin : finishE tearCb setupCb st = (evs₁, .error e₁) := by
      simp only [finishE, hr1]
    constructor
    · intro e he
      rw [hfin] at he
      simp only [Except.error.injEq] at he
      constructor
      · intro hw
        rw [hfin] at hw
        obtain ⟨f, hf⟩ := runCallbacks_trace_shape tearCb Ev.teardown
          st.removedFeatures st.appPkg Ev.write (by rw [hr1]; exact hw)
        exact Ev.noConfusion hf
      · obtain ⟨f, p', hf⟩ := runCallbacks_err_src tearCb Ev.teardown
          st.removedFeatures st.appPkg e₁ (by rw [hr1])
        exact ⟨f, p', Or.inl (he ▸ hf)⟩
    · intro st' wrote h
      rw [hfin] at h
      exact absurd h (by simp)
  | ok p₁ =>
    have htr1 : evs₁ = st.removedFeatures.map Ev.teardown := by
      have h := runCallbacks_ok_trace tearCb Ev.teardown st.removedFeatures
        st.appPkg p₁ (by rw [hr1])
      rw [hr1] at h
      exact h
    rcases hr2 : runCallbacks setupCb Ev.setup st.changedFeatures p₁
      with ⟨evs₂, r₂⟩
    cases r₂ with
    | error e₂ =>
      have hfin : finishE tearCb setupCb st = (evs₁ ++ evs₂, .error e₂) := by
        simp only [finishE, hr1, hr2]
      constructor
      · intro e he
        rw [hfin] at he
        simp only [Except.error.injEq] at he
        constructor
        · intro hw
          rw [hfin] at hw
          rcases List.mem_append.mp hw with hw | hw
          · obtain ⟨f, hf⟩ := runCallbacks_trace_shape tearCb Ev.teardown
              st.removedFeatures st.appPkg Ev.write (by rw [hr1]; exact hw)
            exact Ev.noConfusion hf
          · obtain ⟨f, hf⟩ := runCallbacks_trace_shape setupCb Ev.setup
              st.changedFeatures p₁ Ev.write (by rw [hr2]; exact hw)
            exact Ev.noConfusion hf
        · obtain ⟨f, p', hf⟩ := runCallbacks_err_src setupCb Ev.setup
            st.changedFeatures p₁ e₂ (by rw [hr2])
          exact ⟨f, p', Or.inr (he ▸ hf)⟩
      · intro st' wrote h
        rw [hfin] at h
        exact absurd h (by simp)
    | ok p₂ =>
      have htr2 : evs₂ = st.changedFeatures.map Ev.setup := by
        have h := runCallbacks_ok_trace setupCb Ev.setup st.changedFeatures
          p₁ p₂ (by rw [hr2])
        rw [hr2] at h
        exact h
      by_cases hchg : st.existAppPkgData ≠ setFeaturesBlock p₂ st.features
      · have hsave : saveAppPkgJson
            { st with appPkg := setFeaturesBlock p₂ st.features }
            = ({ st with
                appPkg := setFeaturesBlock p₂ st.features,
                existAppPkgData := setFeaturesBlock p₂ st.features },
              true) := by
          simp only [saveAppPkgJson]
          rw [if_pos hchg]
        have hfin : finishE tearCb setupCb st
            = (evs₁ ++ evs₂ ++ [Ev.write],
              .ok ({ st with
                appPkg := setFeaturesBlock p₂ st.features,
                existAppPkgData := setFeaturesBlock p₂ st.features },
                true)) := by
          simp only [finishE, hr1, hr2, hsave]
          rfl
        constructor
        · intro e he
          rw [hfin] at he
          exact absurd he (by simp)
        · intro st' wrote h
          rw [hfin] at h
          simp only [Except.ok.injEq, Prod.mk.injEq] at h
          obtain ⟨hst', hw⟩ := h
          subst hw
          subst hst'
          rw [hfin, htr1, htr2]
          refine ⟨by simp, ?_⟩
          simp only [if_true, true_iff]
          exact fun hh => hchg hh.symm
      · have heq : st.existAppPkgData = setFeaturesBlock p₂ st.features := by
          by_contra hc
          exact hchg hc
        have hsave : saveAppPkgJson
            { st with appPkg := setFeaturesBlock p₂ st.features }
            = ({ st with appPkg := setFeaturesBlock p₂ st.features },
              false) := by
          simp only [saveAppPkgJson]
          rw [if_neg hchg]
        have hfin : finishE tearCb setupCb st
            = (evs₁ ++ evs₂,
              .ok ({ st with appPkg := setFeaturesBlock p₂ st.features },
                false)) := by
          simp only [finishE, hr1, hr2, hsave]
          simp
        constructor
        · intro e he
          rw [hfin] at he
          exact absurd he (by simp)
        · intro st' wrote h
          rw [hfin] at h
          simp only [Except.ok.injEq, Prod.mk.injEq] at h
          obtain ⟨hst', hw⟩ := h
          subst hw
          subst hst'
          rw [hfin, htr1, htr2]
          refine ⟨by simp, ?_⟩
          simp only [Bool.false_eq_true, false_iff, ne_eq, not_not]
          exact heq.symm

/-- Callbacks that succeed without touching the manifest. -/
def idCb : String → Pkg → Except String Pkg := fun _ p => .ok p

/-- An engine mid-invocation: one removed feature, one changed feature, and
a manifest that differs from its as-loaded snapshot. -/
def c5wSt : Engine :=
  ⟨⟨[("devDependencies", [("typescript", "^4.0.0")])], none⟩, ⟨[], none⟩,
    ["typescript"], ["mocha"], ["typescript"], ["typescript"]⟩

/-- The outcome of `finish` on that engine. -/
def c5wOut : Engine × Bool :=
  match (finishE idCb idCb c5wSt).2 with
  | .ok r => r
  | .error _ => (c5wSt, false)

/-- C5, witness: the trace of a concrete successful `finish`. -/
theorem c5_finish_semantics_w :
    (finishE idCb idCb c5wSt).1
      = c5wSt.removedFeatures.map Ev.teardown
        ++ c5wSt.changedFeatures.map Ev.setup
        ++ (if c5wOut.2 then [Ev.write] else []) :=
  ((c5_finish_semantics idCb idCb c5wSt).2 c5wOut.1 c5wOut.2 (by rfl)).1

/-! ### Claim C7 — section-level round-trip machinery -/

theorem setKey_setKey {β : Type} : ∀ (l : List (String × β)) (k : String)
    (v₁ v₂ : β), setKey (setKey l k v₁) k v₂ = setKey l k v₂ := by
  intro l
  induction l with
  | nil => intro k v₁ v₂; simp [setKey]
  | cons kv rest ih =>
    intro k v₁ v₂
    obtain ⟨k', v'⟩ := kv
    by_cases hk : k' = k
    · subst hk
      simp [setKey]
    · simp [setKey, hk, ih]

theorem setKey_comm_of_mem {β : Type} : ∀ {l : List (String × β)}
    {k₁ k₂ : String} (v₁ v₂ : β), k₁ ≠ k₂ → k₁ ∈ keysOf l →
    setKey (setKey l k₂ v₂) k₁ v₁ = setKey (setKey l k₁ v₁) k₂ v₂ := by
  intro l
  induction l with
  | nil =>
    intro k₁ k₂ v₁ v₂ _ hm
    simp [keysOf] at hm
  | cons kv rest ih =>
    intro k₁ k₂ v₁ v₂ hne hm
    obtain ⟨k, v⟩ := kv
    by_cases hk1 : k = k₁
    · subst hk1
      have hk2 : ¬ k = k₂ := fun hh => hne (hh ▸ rfl)
      simp [setKey, hk2]
    · by_cases hk2 : k = k₂
      · subst hk2
        have hm' : k₁ ∈ keysOf rest := by
          simp only [keysOf, List.map_cons, List.mem_cons] at hm
          rcases hm with h | h
          · exact absurd h.symm hk1
          · exact h
        have hne' : ¬ k = k₁ := hk1
        simp [setKey, hne']
      · have hm' : k₁ ∈ keysOf rest := by
          simp only [keysOf, List.map_cons, List.mem_cons] at hm
          rcases hm with h | h
          · exact absurd h.symm hk1
          · exact h
        simp [setKey, hk1, hk2, ih v₁ v₂ hne hm']

theorem delKey_cons {β : Type} (k' : String) (v' : β)
    (rest : List (String × β)) (k : String) :
    delKey ((k', v') :: rest) k
      = if k' = k then delKey rest k else (k', v') :: delKey rest k := by
  by_cases h : k' = k <;> simp [delKey, h]

theorem delKey_setKey_comm {β : Type} : ∀ (l : List (String × β))
    {k₁ k₂ : String} (v : β), k₁ ≠ k₂ →
    delKey (setKey l k₂ v) k₁ = setKey (delKey l k₁) k₂ v := by
  intro l
  induction l with
  | nil =>
    intro k₁ k₂ v hne
    have h : ¬ k₂ = k₁ := fun hh => hne hh.symm
    simp only [setKey, delKey_cons, if_neg h]
    rfl
  | cons kv rest ih =>
    intro k₁ k₂ v hne
    obtain ⟨k, v'⟩ := kv
    by_cases hk2 : k = k₂
    · subst hk2
      have hne' : ¬ k = k₁ := fun hh => hne hh.symm
      rw [setKey, if_pos rfl, delKey_cons, if_neg hne', delKey_cons,
        if_neg hne', setKey, if_pos rfl]
    · by_cases hk1 : k = k₁
      · subst hk1
        rw [setKey, if_neg hk2, delKey_cons, if_pos rfl, delKey_cons,
          if_pos rfl]
        exact ih v hne
      · rw [setKey, if_neg hk2, delKey_cons, if_neg hk1, delKey_cons,
          if_neg hk1, setKey, if_neg hk2, ih v hne]

theorem getSection_updateSec_ne {pkg : Sections} {d : Obj} {s s' : String}
    (h : s' ≠ s) : getSection (updateSec pkg d s) s' = getSection pkg s' := by
  rw [updateSec]
  by_cases hemp : (applyDeps (getSection pkg s) d).isEmpty
  · simp [hemp]
  · simp only [hemp, Bool.false_eq_true, if_false]
    rw [getSection, lookupKey_setKey_ne _ _ h]
    rfl

theorem getSection_removeSec_ne {pkg : Sections} {d : Obj} {s s' : String}
    (h : s' ≠ s) : getSection (removeSec pkg d s) s' = getSection pkg s' := by
  rw [removeSec]
  by_cases hemp : (delKeys (getSection pkg s) (keysOf d)).isEmpty
  · simp only [hemp, if_true]
    rw [getSection, lookupKey_delKey_ne _ h]
    rfl
  · simp only [hemp, Bool.false_eq_true, if_false]
    rw [getSection, lookupKey_setKey_ne _ _ h]
    rfl

/-- A section obligation for the round-trip: the feature's entries have
unique keys none of which is already in the manifest's section, and the
section is well-formed JS-object data in sorted order that is either absent
or non-empty. -/
def SecOK (pkg : Sections) (s : String) (d : Obj) : Prop :=
  (keysOf d).Nodup ∧
  (∀ k ∈ keysOf d, k ∉ keysOf (getSection pkg s)) ∧
  List.Pairwise (fun a b : String × String => sLe a.1 b.1)
    (getSection pkg s) ∧
  (keysOf (getSection pkg s)).Nodup ∧
  lookupKey pkg s ≠ some []

instance (pkg : Sections) (s : String) (d : Obj) :
    Decidable (SecOK pkg s d) := by
  unfold SecOK
  infer_instance

theorem pairwise_keyLt_of_sorted_nodup {o : Obj}
    (hs : List.Pairwise (fun a b : String × String => sLe a.1 b.1) o)
    (hn : (keysOf o).Nodup) :
    List.Pairwise (fun a b : String × String => sLt a.1 b.1) o := by
  have hn' : List.Pairwise (fun a b : String × String => a.1 ≠ b.1) o := by
    rw [keysOf] at hn
    exact (List.pairwise_map.mp hn)
  exact (hs.and hn').imp (fun h => sLt_of_sLe_ne h.1 h.2)

theorem obj_eq_of_perm_of_sorted {o₁ o₂ : Obj} (hp : List.Perm o₁ o₂)
    (h₁ : List.Pairwise (fun a b : String × String => sLt a.1 b.1) o₁)
    (h₂ : List.Pairwise (fun a b : String × String => sLt a.1 b.1) o₂) :
    o₁ = o₂ :=
  List.eq_of_perm_of_sorted hp h₁ h₂

theorem updateSec_nil_id {pkg : Sections} {s : String}
    (hne : lookupKey pkg s ≠ some [])
    (hs : List.Pairwise (fun a b : String × String => sLe a.1 b.1)
      (getSection pkg s)) :
    updateSec pkg [] s = pkg := by
  rcases h : lookupKey pkg s with _ | o
  · have h0 : getSection pkg s = [] := by
      rw [getSection, h]
      rfl
    simp [updateSec, applyDeps_nil, h0]
  · have hge : getSection pkg s = o := by
      rw [getSection, h]
      rfl
    have hone : o ≠ [] := fun hh => hne (hh ▸ h)
    have hoe : o.isEmpty = false := by
      rcases o with _ | _
      · exact absurd rfl hone
      · rfl
    simp only [updateSec, applyDeps_nil, hge, hoe, Bool.false_eq_true,
      if_false]
    rw [show sortObjKeys o = o from
      List.Sorted.insertionSort_eq (hge ▸ hs)]
    exact setKey_eq_self h

theorem delKeys_nil_left (ks : List String) : delKeys [] ks = [] := by
  rw [delKeys_eq_filter]
  rfl

theorem removeSec_nil_id {pkg : Sections} {s : String}
    (hne : lookupKey pkg s ≠ some [])
    (hs : List.Pairwise (fun a b : String × String => sLe a.1 b.1)
      (getSection pkg s)) :
    removeSec pkg [] s = pkg := by
  rcases h : lookupKey pkg s with _ | o
  · have h0 : getSection pkg s = [] := by
      rw [getSection, h]
      rfl
    have : removeSec pkg [] s = delKey pkg s := by
      simp [removeSec, h0, delKeys_nil_left]
    rw [this]
    exact delKey_of_not_mem ((lookupKey_eq_none pkg s).mp h)
  · have hge : getSection pkg s = o := by
      rw [getSection, h]
      rfl
    have hone : o ≠ [] := fun hh => hne (hh ▸ h)
    have hoe : o.isEmpty = false := by
      rcases o with _ | _
      · exact absurd rfl hone
      · rfl
    have hdo : delKeys o (keysOf ([] : Obj)) = o := rfl
    simp only [removeSec, hge]
    rw [hdo]
    simp only [hoe, Bool.false_eq_true, if_false]
    rw [show sortObjKeys o = o from
      List.Sorted.insertionSort_eq (hge ▸ hs)]
    exact setKey_eq_self h

/-- The per-section round trip: merging a feature's entries and then
removing them restores the section exactly, under the `SecOK`
obligations. -/
theorem updateSec_roundtrip (pkg : Sections) (s : String) (d : Obj)
    (hok : SecOK pkg s d) :
    removeSec (updateSec pkg d s) d s = pkg := by
  obtain ⟨hdnd, hdisj, hsort, htnd, hne⟩ := hok
  by_cases hd : d = []
  · subst hd
    rw [updateSec_nil_id hne hsort, removeSec_nil_id hne hsort]
  · have happ : applyDeps (getSection pkg s) d = getSection pkg s ++ d :=
      applyDeps_eq_append hdisj hdnd
    have happne : (getSection pkg s ++ d).isEmpty = false := by
      rcases hd' : d with _ | ⟨kv, rest⟩
      · exact absurd hd' hd
      · rcases getSection pkg s with _ | _ <;> rfl
    have hupd : updateSec pkg d s
        = setKey pkg s (sortObjKeys (getSection pkg s ++ d)) := by
      simp only [updateSec, happ, happne, Bool.false_eq_true, if_false]
    have hget : getSection (updateSec pkg d s) s
        = sortObjKeys (getSection pkg s ++ d) := by
      rw [hupd, getSection_setKey_self]
    have hndapp : (keysOf (getSection pkg s ++ d)).Nodup := by
      rw [keysOf_append, List.nodup_append]
      exact ⟨htnd, hdnd, fun k hk hk2 => hdisj k hk2 hk⟩
    have ht₁perm : List.Perm
        (delKeys (sortObjKeys (getSection pkg s ++ d)) (keysOf d))
        (getSection pkg s) := by
      rw [delKeys_eq_filter]
      refine ((perm_sortObjKeys (getSection pkg s ++ d)).filter _).trans ?_
      rw [List.filter_append]
      have h1 : List.filter (fun kv => decide (kv.1 ∉ keysOf d))
          (getSection pkg s) = getSection pkg s := by
        rw [List.filter_eq_self]
        rintro ⟨k, v⟩ hkv
        simp only [decide_eq_true_eq]
        intro hk
        exact hdisj k hk (List.mem_map.mpr ⟨(k, v), hkv, rfl⟩)
      have h2 : List.filter (fun kv => decide (kv.1 ∉ keysOf d)) d
          = [] := by
        rw [List.filter_eq_nil_iff]
        rintro ⟨k, v⟩ hkv
        simp only [decide_eq_true_eq, not_not]
        exact List.mem_map.mpr ⟨(k, v), hkv, rfl⟩
      rw [h1, h2, List.append_nil]
    have ht₁ : delKeys (sortObjKeys (getSection pkg s ++ d)) (keysOf d)
        = getSection pkg s := by
      refine obj_eq_of_perm_of_sorted ht₁perm ?_ ?_
      · rw [delKeys_eq_filter]
        refine pairwise_keyLt_of_sorted_nodup
          ((sorted_sortObjKeys _).filter _) ?_
        have hsub : List.Sublist
            (List.filter (fun kv => decide (kv.1 ∉ keysOf d))
              (sortObjKeys (getSection pkg s ++ d)))
            (sortObjKeys (getSection pkg s ++ d)) :=
          List.filter_sublist _
        exact (nodup_keysOf_sortObjKeys hndapp).sublist (hsub.map Prod.fst)
      · exact pairwise_keyLt_of_sorted_nodup hsort htnd
    by_cases ht0 : getSection pkg s = []
    · have hlnone : lookupKey pkg s = none := by
        rcases hl : lookupKey pkg s with _ | o
        · rfl
        · exfalso
          have ho : o = [] := by
            have := ht0
            rw [getSection, hl] at this
            exact this
          exact hne (ho ▸ hl)
      have hsm : s ∉ keysOf pkg := (lookupKey_eq_none pkg s).mp hlnone
      have ht₁0 : delKeys
          (getSection (updateSec pkg d s) s) (keysOf d) = [] := by
        rw [hget, ht₁, ht0]
      have hrs : removeSec (updateSec pkg d s) d s
          = delKey (updateSec pkg d s) s := by
        simp [removeSec, ht₁0]
      rw [hrs, hupd, setKey_of_not_mem _ hsm, delKey, List.filter_append]
      have h1 : List.filter (fun kv => decide (kv.1 ≠ s)) pkg = pkg := by
        rw [List.filter_eq_self]
        rintro ⟨k, v⟩ hkv
        simp only [decide_eq_true_eq]
        rintro rfl
        exact hsm (List.mem_map.mpr ⟨(k, v), hkv, rfl⟩)
      rw [h1]
      simp
    · have hlsome : lookupKey pkg s = some (getSection pkg s) := by
        rcases hl : lookupKey pkg s with _ | o
        · exfalso
          apply ht0
          rw [getSection, hl]
          rfl
        · rw [getSection, hl]
          rfl
      have ht₁ne : (delKeys (getSection (updateSec pkg d s) s)
          (keysOf d)).isEmpty = false := by
        rw [hget, ht₁]
        rcases h : getSection pkg s with _ | _
        · exact absurd h ht0
        · rfl
      have hrs : removeSec (updateSec pkg d s) d s
          = setKey (updateSec pkg d s) s
            (sortObjKeys (delKeys (getSection (updateSec pkg d s) s)
              (keysOf d))) := by
        simp only [removeSec, ht₁ne, Bool.false_eq_true, if_false]
      rw [hrs, hget, ht₁,
        show sortObjKeys (getSection pkg s) = getSection pkg s from
          List.Sorted.insertionSort_eq hsort,
        hupd, setKey_setKey]
      exact setKey_eq_self hlsome

/-- `Feature.remove` on one section commutes with `Feature.update` on a
different section. -/
theorem removeSec_updateSec_comm {Z : Sections} {d₁ d₂ : Obj}
    {s₁ s₂ : String} (h : s₁ ≠ s₂) :
    removeSec (updateSec Z d₂ s₂) d₁ s₁
      = updateSec (removeSec Z d₁ s₁) d₂ s₂ := by
  have hframe2 : getSection (removeSec Z d₁ s₁) s₂ = getSection Z s₂ :=
    getSection_removeSec_ne (Ne.symm h)
  by_cases hu : (applyDeps (getSection Z s₂) d₂).isEmpty
  · have hU : updateSec Z d₂ s₂ = Z := by
      simp [updateSec, hu]
    rw [hU]
    have : updateSec (removeSec Z d₁ s₁) d₂ s₂ = removeSec Z d₁ s₁ := by
      simp [updateSec, hframe2, hu]
    rw [this]
  · have hU : updateSec Z d₂ s₂
        = setKey Z s₂ (sortObjKeys (applyDeps (getSection Z s₂) d₂)) := by
      simp only [updateSec, hu, Bool.false_eq_true, if_false]
    have hg1 : getSection (updateSec Z d₂ s₂) s₁ = getSection Z s₁ :=
      getSection_updateSec_ne h
    have hRHS : updateSec (removeSec Z d₁ s₁) d₂ s₂
        = setKey (removeSec Z d₁ s₁) s₂
          (sortObjKeys (applyDeps (getSection Z s₂) d₂)) := by
      simp only [updateSec, hframe2, hu, Bool.false_eq_true, if_false]
    by_cases hr : (delKeys (getSection Z s₁) (keysOf d₁)).isEmpty
    · have hR : removeSec Z d₁ s₁ = delKey Z s₁ := by
        simp [removeSec, hr]
      have hL : removeSec (updateSec Z d₂ s₂) d₁ s₁
          = delKey (updateSec Z d₂ s₂) s₁ := by
        simp [removeSec, hg1, hr]
      rw [hL, hU, delKey_setKey_comm _ _ h, hRHS, hR]
    · have hR : removeSec Z d₁ s₁
          = setKey Z s₁ (sortObjKeys (delKeys (getSection Z s₁)
            (keysOf d₁))) := by
        simp only [removeSec, hr, Bool.false_eq_true, if_false]
      have hL : removeSec (updateSec Z d₂ s₂) d₁ s₁
          = setKey (updateSec Z d₂ s₂) s₁
            (sortObjKeys (delKeys (getSection Z s₁) (keysOf d₁))) := by
        simp only [removeSec, hg1, hr, Bool.false_eq_true, if_false]
      have ht0ne : getSection Z s₁ ≠ [] := by
        intro hh
        rw [hh, delKeys_nil_left] at hr
        exact hr rfl
      have hmem : s₁ ∈ keysOf Z := by
        rw [← lookupKey_isSome]
        rcases hl : lookupKey Z s₁ with _ | o
        · exfalso
          apply ht0ne
          rw [getSection, hl]
          rfl
        · rfl
      rw [hL, hU, setKey_comm_of_mem _ _ h hmem, hRHS, hR]

/-- Merging a feature's dependencies into the manifest and removing them
again restores the manifest's sections exactly. -/
theorem pkg_roundtrip (ft : Feature) (p : Sections)
    (h1 : SecOK p "dependencies" ft.deps)
    (h2 : SecOK p "devDependencies" ft.devDeps) :
    ft.removeFromPkg (ft.updateToPkg p) = p := by
  unfold Feature.updateToPkg Feature.removeFromPkg
  rw [removeSec_updateSec_comm (by decide),
    updateSec_roundtrip p "dependencies" ft.deps h1,
    updateSec_roundtrip p "devDependencies" ft.devDeps h2]

theorem removeFeaturesLoop_skip (cat : Catalog) :
    ∀ (l : List String) (st : Engine), (∀ f ∈ l, f ∉ st.features) →
      removeFeaturesLoop cat st l = .ok st := by
  intro l
  induction l with
  | nil => intro st _; rfl
  | cons f rest ih =>
    intro st h
    rw [removeFeaturesLoop, if_neg (h f (List.mem_cons_self f rest))]
    exact ih st (fun g hg => h g (List.mem_cons_of_mem f hg))

theorem addFeaturesLoop_single (cat : Catalog) (ft : Feature) :
    ∀ (l : List String) (st : Engine) (f : String),
      l.Nodup → f ∈ l → (∀ g ∈ l, g ≠ f → g ∈ st.features) →
      f ∉ st.features → cat f = some ft →
      addFeaturesLoop cat st l
        = .ok { st with
            appPkg := { st.appPkg with
              sections := ft.updateToPkg st.appPkg.sections },
            changedFeatures := st.changedFeatures ++ [f] } := by
  intro l
  induction l with
  | nil => intro st f _ hm; simp at hm
  | cons g rest ih =>
    intro st f hnd hm hg hf hcat
    rw [addFeaturesLoop]
    by_cases hgm : g ∈ st.features
    · rw [if_pos hgm]
      have hgf : g ≠ f := fun hh => hf (hh ▸ hgm)
      have hmr : f ∈ rest := by
        rcases List.mem_cons.mp hm with rfl | hmr
        · exact absurd hgm hf
        · exact hmr
      exact ih st f (List.nodup_cons.mp hnd).2 hmr
        (fun g' hg' => hg g' (List.mem_cons_of_mem g hg')) hf hcat
    · rw [if_neg hgm]
      have hgf : g = f := by
        by_contra hc
        exact hgm (hg g (List.mem_cons_self g rest) hc)
      subst hgf
      rw [hcat]
      refine addFeaturesLoop_skip cat rest _ ?_
      intro g' hg'
      have hg'f : g' ≠ g := by
        intro hh
        subst hh
        exact (List.nodup_cons.mp hnd).1 hg'
      exact hg g' (List.mem_cons_of_mem g hg') hg'f

theorem removeFeaturesLoop_single (cat : Catalog) (ft : Feature) :
    ∀ (l : List String) (st : Engine) (f : String),
      l.Nodup → f ∈ l → (∀ g ∈ l, g ≠ f → g ∉ st.features) →
      f ∈ st.features → cat f = some ft →
      removeFeaturesLoop cat st l
        = .ok { st with
            appPkg := { st.appPkg with
              sections := ft.removeFromPkg st.appPkg.sections },
            removedFeatures := st.removedFeatures ++ [f] } := by
  intro l
  induction l with
  | nil => intro st f _ hm; simp at hm
  | cons g rest ih =>
    intro st f hnd hm hg hf hcat
    rw [removeFeaturesLoop]
    by_cases hgf : g = f
    · subst hgf
      rw [if_pos hf, hcat]
      refine removeFeaturesLoop_skip cat rest _ ?_
      intro g' hg'
      have hg'f : g' ≠ g := by
        intro hh
        subst hh
        exact (List.nodup_cons.mp hnd).1 hg'
      exact hg g' (List.mem_cons_of_mem g hg') hg'f
    · rw [if_neg (hg g (List.mem_cons_self g rest) hgf)]
      have hmr : f ∈ rest := by
        rcases List.mem_cons.mp hm with rfl | hmr
        · exact absurd rfl hgf
        · exact hmr
      exact ih st f (List.nodup_cons.mp hnd).2 hmr
        (fun g' hg' => hg g' (List.mem_cons_of_mem g hg')) hf hcat

theorem nodup_addResolve (c q : List String) : (addResolve c q).Nodup :=
  nodup_uniq _

theorem nodup_removeRemoving (c q : List String) :
    (removeRemoving c q).Nodup :=
  nodup_uniq _

/-- C7 (amended): adding a feature `f` and immediately removing it restores
both the manifest and the active feature set exactly, provided (i) `f` was
not already active, (ii) the add-implications introduce no feature outside
current ∪ {f}, (iii) the current set is closed under the removal
companions (eslintTS active only with typescript and eslint, jestTS only
with typescript and jest, typedoc only with typescript), and (iv) `f`'s
dependency entries have fresh unique keys and the touched manifest sections
are sorted, duplicate-free and not present-as-empty.  Without these
conditions the round trip fails (see the counterexample). -/
theorem c7_add_remove_roundtrip (cat : Catalog) (st : Engine) (f : String)
    (ft : Feature)
    (hfnd : st.features.Nodup) (hfs : List.Sorted sLe st.features)
    (hf : f ∉ st.features) (hcat : cat f = some ft)
    (himp1 : "typescript" ∈ st.features ++ [f] →
      "eslint" ∈ st.features ++ [f] → "eslintTS" ∈ st.features ++ [f])
    (himp2 : "jest" ∈ st.features ++ [f] →
      "typescript" ∈ st.features ++ [f] → "jestTS" ∈ st.features ++ [f])
    (himp3 : "typedoc" ∈ st.features ++ [f] →
      "typescript" ∈ st.features ++ [f])
    (hcl1 : "eslintTS" ∈ st.features →
      "typescript" ∈ st.features ∧ "eslint" ∈ st.features)
    (hcl2 : "jestTS" ∈ st.features →
      "typescript" ∈ st.features ∧ "jest" ∈ st.features)
    (hcl3 : "typedoc" ∈ st.features → "typescript" ∈ st.features)
    (hsec1 : SecOK st.appPkg.sections "dependencies" ft.deps)
    (hsec2 : SecOK st.appPkg.sections "devDependencies" ft.devDeps) :
    ∃ st₁ st₂, addFeaturesE cat st [f] = .ok st₁ ∧
      removeFeaturesE cat st₁ [f] = .ok st₂ ∧
      st₂.appPkg = st.appPkg ∧ st₂.features = st.features := by
  have hU : ∀ a : String, a ∈ st.features ++ [f] ↔
      (a ∈ st.features ∨ a = f) := by
    intro a
    simp
  -- the add loop touches exactly f
  have hsingle : ∀ g ∈ addResolve st.features [f], g ≠ f →
      g ∈ st.features := by
    intro g hg hgf
    rw [mem_addResolve_iff] at hg
    have hfin : g ∈ st.features ++ [f] → g ∈ st.features := by
      intro h
      rcases (hU g).mp h with h | h
      · exact h
      · exact absurd h hgf
    rcases hg with h | h | h | h
    · exact hfin h
    · exact hfin (h.1 ▸ himp1 h.2.1 h.2.2)
    · exact hfin (h.1 ▸ himp2 h.2.1 h.2.2)
    · exact hfin (h.1 ▸ himp3 h.2)
  have hfmem : f ∈ addResolve st.features [f] := by
    rw [mem_addResolve_iff]
    exact Or.inl (by simp)
  have hloop1 := addFeaturesLoop_single cat ft (addResolve st.features [f])
    st f (nodup_addResolve _ _) hfmem hsingle hf hcat
  rcases he₁ : addFeaturesE cat st [f] with e | st₁
  · exfalso
    rw [addFeaturesE_err_inv he₁] at hloop1
    exact Except.noConfusion hloop1
  obtain ⟨hfeat1, stA, hloopA, hpkg1, hch1, hrm1⟩ := addFeaturesE_ok_inv he₁
  rw [hloopA] at hloop1
  have hstA : stA = { st with
      appPkg := { st.appPkg with
        sections := ft.updateToPkg st.appPkg.sections },
      changedFeatures := st.changedFeatures ++ [f] } := by
    injection hloop1
  have hpkg1' : st₁.appPkg = { st.appPkg with
      sections := ft.updateToPkg st.appPkg.sections } := by
    rw [hpkg1, hstA]
  -- membership of the features after the add
  have hmemf1 : ∀ a : String, a ∈ st₁.features ↔
      (a ∈ st.features ∨ a = f) := by
    intro a
    rw [hfeat1, mem_updateFeaturesList]
    constructor
    · intro h
      rw [mem_addResolve_iff] at h
      rcases h with h | h | h | h
      · exact (hU a).mp h
      · exact (hU a).mp (h.1 ▸ himp1 h.2.1 h.2.2)
      · exact (hU a).mp (h.1 ▸ himp2 h.2.1 h.2.2)
      · exact (hU a).mp (h.1 ▸ himp3 h.2)
    · intro h
      rw [mem_addResolve_iff]
      exact Or.inl ((hU a).mpr h)
  -- the first removal stage keeps exactly the old features
  have hnf1 : ∀ a : String,
      a ∈ removeNewFeatures st₁.features [f] ↔ a ∈ st.features := by
    intro a
    rw [mem_removeNewFeatures]
    constructor
    · rintro ⟨h1, h2⟩
      rcases (hmemf1 a).mp h1 with h | h
      · exact h
      · exact absurd (by simp [h]) h2
    · intro h
      have haf : a ≠ f := fun hh => hf (hh ▸ h)
      exact ⟨(hmemf1 a).mpr (Or.inl h), by simp [haf]⟩
  -- any implied removal companion is not in the old features
  have hcomp : ∀ a : String, a ∈ removeRemoving st₁.features [f] →
      a ≠ f → a ∉ st.features := by
    intro a ha haf
    rw [mem_removeRemoving_iff] at ha
    rcases ha with h | h | h | h
    · exact absurd (by simpa using h) haf
    · obtain ⟨rfl, hc⟩ := h
      intro hmem
      obtain ⟨hts, hes⟩ := hcl1 hmem
      rcases hc with hc | hc
      · exact hc ((hnf1 _).mpr hts)
      · exact hc ((hnf1 _).mpr hes)
    · obtain ⟨rfl, hc⟩ := h
      intro hmem
      obtain ⟨hts, hj⟩ := hcl2 hmem
      rcases hc with hc | hc
      · exact hc ((hnf1 _).mpr hts)
      · exact hc ((hnf1 _).mpr hj)
    · obtain ⟨rfl, hc⟩ := h
      intro hmem
      exact hc ((hnf1 _).mpr (hcl3 hmem))
  have hrsingle : ∀ g ∈ removeRemoving st₁.features [f], g ≠ f →
      g ∉ st₁.features := by
    intro g hg hgf hmem
    rcases (hmemf1 g).mp hmem with h | h
    · exact hcomp g hg hgf h
    · exact hgf h
  have hfmem₂ : f ∈ removeRemoving st₁.features [f] := by
    rw [mem_removeRemoving_iff]
    exact Or.inl (by simp)
  have hfact : f ∈ st₁.features := (hmemf1 f).mpr (Or.inr rfl)
  have hloop2 := removeFeaturesLoop_single cat ft
    (removeRemoving st₁.features [f]) st₁ f (nodup_removeRemoving _ _)
    hfmem₂ hrsingle hfact hcat
  rcases he₂ : removeFeaturesE cat st₁ [f] with e | st₂
  · exfalso
    rw [removeFeaturesE_err_inv he₂] at hloop2
    exact Except.noConfusion hloop2
  obtain ⟨hfeat2, stB, hloopB, hpkg2, hch2, hrm2⟩ :=
    removeFeaturesE_ok_inv he₂
  rw [hloopB] at hloop2
  have hstB : stB = { st₁ with
      appPkg := { st₁.appPkg with
        sections := ft.removeFromPkg st₁.appPkg.sections },
      removedFeatures := st₁.removedFeatures ++ [f] } := by
    injection hloop2
  refine ⟨st₁, st₂, rfl, he₂, ?_, ?_⟩
  · rw [hpkg2, hstB]
    show ({ st₁.appPkg with
      sections := ft.removeFromPkg st₁.appPkg.sections } : Pkg)
      = st.appPkg
    rw [hpkg1']
    show ({ st.appPkg with
      sections := ft.removeFromPkg (ft.updateToPkg st.appPkg.sections) }
      : Pkg) = st.appPkg
    rw [pkg_roundtrip ft st.appPkg.sections hsec1 hsec2]
  · rw [hfeat2]
    refine updateFeaturesList_eq_of_mem_iff hfs hfnd ?_
    intro a
    rw [mem_removeResolve]
    constructor
    · rintro ⟨h1, -⟩
      exact (hnf1 a).mp h1
    · intro h
      refine ⟨(hnf1 a).mpr h, ?_⟩
      intro hmem
      have haf : a ≠ f := fun hh => hf (hh ▸ h)
      exact hcomp a hmem haf h

/-- The typedoc add/remove round trip on a fresh empty manifest. -/
def c7After : Engine :=
  exOk (removeFeaturesE specCatalog
    (exOk (addFeaturesE specCatalog (mkEngine specCatalog emptyPkg)
      ["typedoc"]))
    ["typedoc"])

/-- C7, counterexample: adding typedoc to a fresh engine (not currently
active) and immediately removing it does not restore the manifest: the add
implied typescript, whose dependencies and active-set entry survive the
removal. -/
theorem c7_add_remove_roundtrip_cex :
    (addFeaturesE specCatalog (mkEngine specCatalog emptyPkg)
      ["typedoc"]).isOk = true ∧
    (removeFeaturesE specCatalog
      (exOk (addFeaturesE specCatalog (mkEngine specCatalog emptyPkg)
        ["typedoc"]))
      ["typedoc"]).isOk = true ∧
    c7After.appPkg ≠ (mkEngine specCatalog emptyPkg).appPkg ∧
    c7After.features ≠ (mkEngine specCatalog emptyPkg).features := by
  decide

/-- C7, witness for the amended theorem: the prettier round trip on a fresh
empty manifest. -/
theorem c7_add_remove_roundtrip_w :
    ∃ st₁ st₂,
      addFeaturesE specCatalog (mkEngine specCatalog emptyPkg) ["prettier"]
        = .ok st₁ ∧
      removeFeaturesE specCatalog st₁ ["prettier"] = .ok st₂ ∧
      st₂.appPkg = (mkEngine specCatalog emptyPkg).appPkg ∧
      st₂.features = (mkEngine specCatalog emptyPkg).features :=
  c7_add_remove_roundtrip specCatalog (mkEngine specCatalog emptyPkg)
    "prettier" ⟨"prettier", [], [("prettier", "^2.0.0")]⟩
    (by decide) (by decide) (by decide) (by decide) (by decide) (by decide)
    (by decide) (by decide) (by decide) (by decide) (by decide) (by decide)

end ModuleDev
